import Mathlib

/-!
# A shallow embedding of `rt-event-sim`

This file embeds the core of the `rt-event-sim` real-time scheduling simulator
(task/job model, EDF/RM schedulers with their ready queue, the schedulability
analyzer, the tick-driven engine `Simulator.run` and the event-driven engine
`Simulator.run_event_driven`) and proves or refutes the frozen claims about it.

Conventions of the embedding:
* Python integers become `Nat` (times, counters) or `Int` (quantities that can
  go negative, such as a job's remaining execution time and latenesses).
* The utilization / Liu-and-Layland comparisons, computed by the source in
  IEEE-754 doubles, are embedded as the exact rational comparisons they
  approximate (the bound `n * (2^(1/n) - 1)` is compared via the equivalent
  exact inequality `(U + n)^n ≤ 2 * n^n`).
* Python exceptions become `Except`; the `rich` console is modelled by the one
  behaviour `is_scalable` observes: calling `.print` on the defaulted `None`
  argument raises `AttributeError`.
* The ready queue `heapq` of `(priority, counter, job)` tuples is modelled as a
  plain list with extraction of the least key: the counters are unique, so the
  tuple order is total and `heappop` returns that unique minimum; the internal
  layout of the heap is unobservable.  The *event* queue's order is not total
  (distinct same-time releases compare unordered), so for it CPython's `heapq`
  algorithm is reproduced operation by operation.
* Python `==` between `Job` objects inside one run is `job_id` equality: jobs
  are aliased mutable dataclass objects and `job_id` is unique per run.
-/

namespace RTSim

/-- Periodic task (`models.py` `Task`): name, worst-case execution time,
period, relative deadline. -/
structure Task where
  name : String
  wcet : Nat
  period : Nat
  deadline : Nat
deriving DecidableEq, Repr

instance : Inhabited Task := ⟨⟨"", 0, 0, 0⟩⟩

/-- `Task.__post_init__` validation: wcet, period and deadline positive,
deadline at most the period. -/
def Task.valid (t : Task) : Bool :=
  0 < t.wcet && 0 < t.period && 0 < t.deadline && t.deadline ≤ t.period

/-- Job instance (`models.py` `Job`).  `remaining` is an `Int` because the
engines decrement it and nothing in the code keeps it nonnegative a priori. -/
structure Job where
  task : Task
  release_time : Nat
  remaining : Int
  absolute_deadline : Nat
  job_id : Nat
deriving DecidableEq, Repr

instance : Inhabited Job := ⟨⟨default, 0, 0, 0, 0⟩⟩

/-- `Job.is_finished`: remaining execution time ≤ 0. -/
def Job.is_finished (j : Job) : Bool := j.remaining ≤ 0

/-- The two scheduler variants of `schedulers.py`. -/
inductive SchedulerVariant
  | edf
  | rm
deriving DecidableEq, Repr

/-- `EDFScheduler._get_priority` / `RMScheduler._get_priority`. -/
def get_priority : SchedulerVariant → Job → Nat
  | .edf, j => j.absolute_deadline
  | .rm, j => j.task.period

/-- `Scheduler.name`. -/
def schedulerName : SchedulerVariant → String
  | .edf => "Earliest Deadline First (EDF)"
  | .rm => "Rate Monotonic (RM)"

/-- Mutable state of a `Scheduler`: the ready queue of
`(priority, counter, job)` tuples and the admission counter. -/
structure SchedState where
  ready_queue : List (Nat × Nat × Job)
  counter : Nat
deriving DecidableEq, Repr

namespace Scheduler

/-- `Scheduler.add_job`: `heappush(ready_queue, (priority, counter, job))`
followed by `counter += 1`.  The heap is a plain list here (see header). -/
def add_job (v : SchedulerVariant) (s : SchedState) (j : Job) : SchedState :=
  { ready_queue := s.ready_queue ++ [(get_priority v j, s.counter, j)],
    counter := s.counter + 1 }

/-- Strict order on ready-queue entries: Python's tuple comparison on
`(priority, counter, job)`, which never reaches the job because counters are
unique. -/
def entryLt (a b : Nat × Nat × Job) : Bool :=
  a.1 < b.1 || (a.1 == b.1 && a.2.1 < b.2.1)

/-- The entry `heappop` returns: the least entry of the queue under `entryLt`. -/
def qMin : List (Nat × Nat × Job) → Option (Nat × Nat × Job)
  | [] => none
  | e :: es => some (es.foldl (fun m x => if entryLt x m then x else m) e)

/-- `Scheduler.get_next_job`: pop the least entry and return its job, or
`None` on an empty queue. -/
def get_next_job (s : SchedState) : Option Job × SchedState :=
  match qMin s.ready_queue with
  | none => (none, s)
  | some e => (some e.2.2, { s with ready_queue := s.ready_queue.erase e })

/-- `Scheduler.has_jobs`. -/
def has_jobs (s : SchedState) : Bool := !s.ready_queue.isEmpty

/-- `Scheduler.clear`: empty the queue and reset the counter. -/
def clear (_ : SchedState) : SchedState := { ready_queue := [], counter := 0 }

end Scheduler

/-! ## Schedulability analysis (`schedulers.py`) -/

def EDF_SCALABILITY_MESSAGE : String :=
  "The scheduler is scalable for the given tasks because the CPU total utilization is less than or equal to 1."

def EDF_NON_SCALABILITY_MESSAGE : String :=
  "The scheduler is not scalable for the given tasks because the CPU total utilization is greater than 1."

def RM_LL_SCALABILITY_MESSAGE : String :=
  "The scheduler is scalable for the given tasks because the CPU total utilization is less or equal to the Liu and Layland utilization bound."

def RM_RTA_SCALABILITY_MESSAGE : String :=
  "The scheduler is scalable for the given tasks because the RTA calculation is less or equal to the deadline of the least priority task."

def RM_RTA_NON_SCALABILITY_MESSAGE : String :=
  "The scheduler is not scalable for the given tasks because the RTA calculation is greater than the deadline of the least priority task."

/-- `sum(task.wcet / task.period for task in tasks)` as an exact rational
(the source computes it in doubles). -/
def utilization (tasks : List Task) : ℚ :=
  tasks.foldl (fun acc t => acc + (t.wcet : ℚ) / (t.period : ℚ)) 0

/-- `EDFScheduler.is_scalable`: schedulable exactly when total utilization is
at most 1, with the corresponding message. -/
def EDFScheduler.is_scalable (tasks : List Task) : Bool × String :=
  let total_utilization := utilization tasks
  let is_scalable := decide (total_utilization ≤ 1)
  (is_scalable,
   if is_scalable then EDF_SCALABILITY_MESSAGE else EDF_NON_SCALABILITY_MESSAGE)

/-- The Liu-and-Layland test `total_utilization ≤ n * (2 ** (1 / n) - 1)` of
`RMScheduler.is_scalable`, as the equivalent exact rational comparison
`(U + n)^n ≤ 2 * n^n` (for `n ≥ 1`, `U ≤ n * (2^(1/n) - 1)` iff
`(U/n + 1)^n ≤ 2`).  The source evaluates the bound in doubles. -/
def ll_bound_holds (tasks : List Task) : Bool :=
  let n := tasks.length
  let U := utilization tasks
  decide ((U + (n : ℚ)) ^ n ≤ 2 * (n : ℚ) ^ n)

/-- The one Python error `is_scalable` can raise: `AttributeError` from
`None.print` when the `console` parameter kept its `None` default. -/
inductive PyError
  | attributeError
deriving DecidableEq, Repr

/-- `console.print(...)`: succeeds when a console object was supplied and
raises `AttributeError` on the `None` default (the parameter shadows the
module-level console). -/
def consolePrint (console : Option Unit) : Except PyError Unit :=
  match console with
  | some _ => .ok ()
  | none => .error .attributeError

/-- Integer ceiling division `(r + p - 1) // p` as written in the source. -/
def ceildiv (r p : Nat) : Nat := (r + p - 1) / p

/-- One RTA refinement step for a task of wcet `w` with higher-priority tasks
`hp`: `w + Σ ⌈r / period_j⌉ * wcet_j`. -/
def rta_next (hp : List Task) (w : Nat) (r : Nat) : Nat :=
  w + hp.foldl (fun acc t => acc + ceildiv r t.period * t.wcet) 0

/-- The initial response-time estimate: the task's wcet plus the sum of the
higher-priority wcets. -/
def rta_init (hp : List Task) (w : Nat) : Nat :=
  w + hp.foldl (fun acc t => acc + t.wcet) 0

/-- Outcome of the source's `while True` RTA loop for one task. -/
inductive RTAOut
  | fuelOut
  | unschedulable
  | converged (r : Nat)
deriving DecidableEq, Repr

/-- The `while True` loop of `RMScheduler.is_scalable` for one task: compute
the new estimate; if it exceeds the deadline, print and declare the set
unschedulable; if it equals the previous estimate, print and stop converged;
otherwise continue.  The source loop is unbounded; it is run here on explicit
fuel, and the termination theorem shows fuel `deadline + 1` is never
exhausted on valid tasks. -/
def rta_loop (console : Option Unit) (hp : List Task) (w d : Nat) :
    Nat → Nat → Except PyError RTAOut
  | 0, _ => .ok .fuelOut
  | fuel + 1, r =>
    let newR := rta_next hp w r
    if d < newR then do
      let _ ← consolePrint console
      .ok .unschedulable
    else if newR = r then do
      let _ ← consolePrint console
      .ok (.converged r)
    else
      rta_loop console hp w d fuel newR

/-- The `for i, task in enumerate(sorted_tasks)` body of
`RMScheduler.is_scalable`: run the RTA loop per task (with the processed
prefix as higher-priority set), stopping at the first failure.  The
`response_time > task.deadline` re-check after the loop is kept even though it
is dead code (a converged estimate already passed the deadline test). -/
def rta_tasks (console : Option Unit) :
    List Task → List Task → Except PyError (Bool × String)
  | _, [] => .ok (true, RM_RTA_SCALABILITY_MESSAGE)
  | hp, task :: rest => do
    match ← rta_loop console hp task.wcet task.deadline (task.deadline + 1)
        (rta_init hp task.wcet) with
    | .fuelOut => .ok (false, RM_RTA_NON_SCALABILITY_MESSAGE)
    | .unschedulable => .ok (false, RM_RTA_NON_SCALABILITY_MESSAGE)
    | .converged r =>
      if task.deadline < r then do
        let _ ← consolePrint console
        .ok (false, RM_RTA_NON_SCALABILITY_MESSAGE)
      else
        rta_tasks console (hp ++ [task]) rest

/-- Return value of `RMScheduler.is_scalable`: the empty-task early return is
a bare boolean (`return True`), every other path returns a pair. -/
inductive RMScalableRet
  | bare (b : Bool)
  | pair (b : Bool) (msg : String)
deriving DecidableEq, Repr

/-- Insert a task into an ascending-by-period list, after every task of
smaller or equal period (keeping the insertion stable). -/
def insertByPeriod (t : Task) : List Task → List Task
  | [] => [t]
  | u :: us => if u.period ≤ t.period then u :: insertByPeriod t us else t :: u :: us

/-- `sorted(tasks, key=lambda task: task.period)` — a stable ascending sort
by period (Python's sort is stable; stable insertion sort is extensionally
the same function). -/
def sortByPeriod (tasks : List Task) : List Task :=
  tasks.foldl (fun acc t => insertByPeriod t acc) []

/-- `RMScheduler.is_scalable`: bare `True` on the empty list; otherwise the
Liu-and-Layland bound, falling back to response-time analysis over the tasks
sorted ascending by period. -/
def RMScheduler.is_scalable (tasks : List Task) (console : Option Unit) :
    Except PyError RMScalableRet :=
  if tasks.isEmpty then .ok (.bare true)
  else if ll_bound_holds tasks then .ok (.pair true RM_LL_SCALABILITY_MESSAGE)
  else do
    let (b, msg) ← rta_tasks console [] (sortByPeriod tasks)
    .ok (.pair b msg)

/-! ## Simulator data (`simulator.py`) -/

/-- Per-task statistics record. -/
structure TaskStats where
  completed : Nat
  missed : Nat
  total_lateness : Int
deriving DecidableEq, Repr

/-- The mutable fields of a `Simulator` together with its scheduler's state. -/
structure EngineState where
  current_time : Nat
  job_counter : Nat
  completed_jobs : Nat
  missed_deadlines : Nat
  total_lateness : Int
  task_stats : List (String × TaskStats)
  timeline : List (Nat × Option String)
  sched : SchedState
deriving DecidableEq, Repr

/-- `Simulator.__init__`: zeroed counters and one stats record per task, in
task order. -/
def initState (tasks : List Task) : EngineState :=
  { current_time := 0, job_counter := 0, completed_jobs := 0,
    missed_deadlines := 0, total_lateness := 0,
    task_stats := tasks.map (fun t => (t.name, ⟨0, 0, 0⟩)),
    timeline := [], sched := { ready_queue := [], counter := 0 } }

/-- Update the stats record of one task name in place. -/
def updStats (stats : List (String × TaskStats)) (name : String)
    (f : TaskStats → TaskStats) : List (String × TaskStats) :=
  stats.map (fun p => if p.1 = name then (p.1, f p.2) else p)

/-- `Simulator._complete_job`: completion time is `self.current_time`;
lateness is `max(0, completion_time - absolute_deadline)`; a positive
lateness also counts a missed deadline. -/
def complete_job (st : EngineState) (j : Job) : EngineState :=
  let lateness : Int := max 0 ((st.current_time : Int) - (j.absolute_deadline : Int))
  let st := { st with
    completed_jobs := st.completed_jobs + 1,
    task_stats := updStats st.task_stats j.task.name
      (fun s => { s with completed := s.completed + 1 }) }
  if 0 < lateness then
    { st with
      missed_deadlines := st.missed_deadlines + 1,
      total_lateness := st.total_lateness + lateness,
      task_stats := updStats st.task_stats j.task.name
        (fun s => { s with missed := s.missed + 1,
                           total_lateness := s.total_lateness + lateness }) }
  else st

/-- `Simulator._reset`: zero the clock and counters, clear the timeline,
clear the scheduler (queue and its counter), zero every stats record. -/
def reset (st : EngineState) : EngineState :=
  { current_time := 0, job_counter := 0, completed_jobs := 0,
    missed_deadlines := 0, total_lateness := 0,
    task_stats := st.task_stats.map (fun p => (p.1, ⟨0, 0, 0⟩)),
    timeline := [], sched := Scheduler.clear st.sched }

/-- `Simulator._release_jobs`: at each tick, release a job of every task
whose period divides the current time. -/
def release_jobs (tasks : List Task) (v : SchedulerVariant)
    (st : EngineState) : EngineState :=
  tasks.foldl
    (fun st task =>
      if st.current_time % task.period = 0 then
        let job : Job := { task := task, release_time := st.current_time,
                           remaining := (task.wcet : Int),
                           absolute_deadline := st.current_time + task.deadline,
                           job_id := st.job_counter }
        { st with job_counter := st.job_counter + 1,
                  sched := Scheduler.add_job v st.sched job }
      else st)
    st

/-- `Simulator._should_preempt`: the new job's priority is numerically
strictly smaller. -/
def should_preempt (v : SchedulerVariant) (cur new : Job) : Bool :=
  get_priority v new < get_priority v cur

/-- The preemption check of the tick engine (`run`, lines 85–96), entered
with an occupant and a non-empty queue: pop the best pending job; on
preemption push the occupant back, otherwise push the pending job back. -/
def preemption_check (v : SchedulerVariant) (sched : SchedState) (cj : Job) :
    SchedState × Job :=
  let (nj?, sched') := Scheduler.get_next_job sched
  match nj? with
  | some nj =>
    if should_preempt v cj nj then (Scheduler.add_job v sched' cj, nj)
    else (Scheduler.add_job v sched' nj, cj)
  | none => (sched', cj)

/-- Completion phase of a tick: a finished occupant is finalized and the
processor cleared. -/
def completion_phase (st : EngineState) (cur : Option Job) :
    EngineState × Option Job :=
  match cur with
  | some j => if j.is_finished then (complete_job st j, none) else (st, some j)
  | none => (st, none)

/-- Preemption phase of a tick: run the preemption check when preemptive
mode is on, a job occupies the processor and the queue is non-empty. -/
def preemption_phase (v : SchedulerVariant) (preemptive : Bool)
    (st : EngineState) (cur : Option Job) : EngineState × Option Job :=
  match cur with
  | some cj =>
    if preemptive && Scheduler.has_jobs st.sched then
      let p := preemption_check v st.sched cj
      ({ st with sched := p.1 }, some p.2)
    else (st, some cj)
  | none => (st, none)

/-- Dispatch phase of a tick: an idle processor takes the best pending job. -/
def dispatch_phase (st : EngineState) (cur : Option Job) :
    EngineState × Option Job :=
  match cur with
  | none =>
    let p := Scheduler.get_next_job st.sched
    ({ st with sched := p.2 }, p.1)
  | some j => (st, some j)

/-- Execution phase of a tick: decrement the occupant's remaining time by one
unit and record the timeline entry. -/
def execute_phase (time : Nat) (st : EngineState) (cur : Option Job) :
    EngineState × Option Job :=
  match cur with
  | some j =>
    ({ st with timeline := st.timeline ++ [(time, some j.task.name)] },
     some { j with remaining := j.remaining - 1 })
  | none =>
    ({ st with timeline := st.timeline ++ [(time, (none : Option String))] }, none)

/-- One tick of `Simulator.run`: set the clock, release, finalize a finished
occupant, preemption check, dispatch, execute one unit and record the
timeline entry. -/
def tick_step (tasks : List Task) (v : SchedulerVariant) (preemptive : Bool)
    (acc : EngineState × Option Job) (time : Nat) : EngineState × Option Job :=
  let st := release_jobs tasks v { acc.1 with current_time := time }
  let a := completion_phase st acc.2
  let b := preemption_phase v preemptive a.1 a.2
  let c := dispatch_phase b.1 b.2
  execute_phase time c.1 c.2

/-- The `for time in range(horizon)` loop of `Simulator.run`, started from
the reset state with an idle processor. -/
def tick_loop (tasks : List Task) (v : SchedulerVariant) (preemptive : Bool)
    (horizon : Nat) (st0 : EngineState) : EngineState × Option Job :=
  (List.range horizon).foldl (tick_step tasks v preemptive) (reset st0, none)

/-- `SimulationResult` (immutable snapshot). -/
structure SimulationResult where
  algorithm : String
  total_time : Nat
  completed_jobs : Nat
  missed_deadlines : Nat
  total_lateness : Int
  task_stats : List (String × TaskStats)
  timeline : List (Nat × Option String)
deriving DecidableEq, Repr

/-- Build the result snapshot from the final state. -/
def mkResult (v : SchedulerVariant) (horizon : Nat) (st : EngineState) :
    SimulationResult :=
  { algorithm := schedulerName v, total_time := horizon,
    completed_jobs := st.completed_jobs,
    missed_deadlines := st.missed_deadlines,
    total_lateness := st.total_lateness, task_stats := st.task_stats,
    timeline := st.timeline }

/-- `Simulator.run`: the tick-driven engine.  After the loop, an occupant
that is **not** finished is force-finalized (a finished occupant is left
uncounted).  Returns the result and the post-run simulator state. -/
def run (tasks : List Task) (v : SchedulerVariant) (horizon : Nat)
    (preemptive : Bool) (st0 : EngineState) : SimulationResult × EngineState :=
  let (st, cur) := tick_loop tasks v preemptive horizon st0
  let st :=
    match cur with
    | some j => if !j.is_finished then complete_job st j else st
    | none => st
  (mkResult v horizon st, st)

/-! ## CPython `heapq`, reproduced operation by operation

The event queue's order (`Event.__lt__`) is not total — distinct same-time
events of the same kind compare unordered — so which of them `heappop`
returns depends on the heap's internal layout.  To stay observably faithful,
the exact CPython algorithm is embedded. -/

namespace Heapq

variable {α : Type} [Inhabited α]

/-- CPython `heapq._siftdown`, on structural fuel so that the kernel can
evaluate it: bubble `newitem` toward the root from `pos`, moving larger
parents down, and place it at the final position.  The position strictly
decreases each iteration, so fuel `pos` is always sufficient (when the fuel
hits 0 the position is 0 and the loop guard is false anyway). -/
def siftdownFuel (lt : α → α → Bool) (newitem : α) (startpos : Nat) :
    Nat → Array α → Nat → Array α
  | 0, heap, pos => heap.setD pos newitem
  | fuel + 1, heap, pos =>
    if startpos < pos then
      let parentpos := (pos - 1) / 2
      let parent := heap.getD parentpos newitem
      if lt newitem parent then
        siftdownFuel lt newitem startpos fuel (heap.setD pos parent) parentpos
      else heap.setD pos newitem
    else heap.setD pos newitem

/-- CPython `heapq._siftdown`. -/
def siftdownLoop (lt : α → α → Bool) (newitem : α) (startpos : Nat)
    (heap : Array α) (pos : Nat) : Array α :=
  siftdownFuel lt newitem startpos pos heap pos

/-- CPython `heapq._siftup`, on structural fuel: move the smaller child up
from `pos` until a leaf is reached, then sift `newitem` down from the leaf
position.  The position at least doubles each iteration and stays below
`endpos`, so fuel `endpos` is always sufficient. -/
def siftupFuel (lt : α → α → Bool) (endpos startpos : Nat) (newitem : α) :
    Nat → Array α → Nat → Array α
  | 0, heap, pos => siftdownLoop lt newitem startpos heap pos
  | fuel + 1, heap, pos =>
    let childpos := 2 * pos + 1
    if childpos < endpos then
      let rightpos := childpos + 1
      if rightpos < endpos &&
          !(lt (heap.getD childpos newitem) (heap.getD rightpos newitem)) then
        siftupFuel lt endpos startpos newitem fuel
          (heap.setD pos (heap.getD rightpos newitem)) rightpos
      else
        siftupFuel lt endpos startpos newitem fuel
          (heap.setD pos (heap.getD childpos newitem)) childpos
    else siftdownLoop lt newitem startpos heap pos

/-- CPython `heapq._siftup`. -/
def siftupLoop (lt : α → α → Bool) (endpos startpos : Nat) (newitem : α)
    (heap : Array α) (pos : Nat) : Array α :=
  siftupFuel lt endpos startpos newitem endpos heap pos

/-- CPython `heapq.heappush`: append, then sift down toward the root. -/
def heappush (lt : α → α → Bool) (heap : Array α) (item : α) : Array α :=
  let h := heap.push item
  siftdownLoop lt item 0 h (h.size - 1)

/-- CPython `heapq.heappop`: remove the last element; on a non-empty rest,
return the root and sift the last element up from the root.  `none` on an
empty heap (CPython raises `IndexError`; the loop only pops non-empty
queues). -/
def heappop (lt : α → α → Bool) (heap : Array α) : Option (α × Array α) :=
  if heap.size = 0 then none
  else
    let lastelt := heap.getD (heap.size - 1) default
    let rest := heap.pop
    if rest.size = 0 then some (lastelt, rest)
    else some (rest.getD 0 default, siftupLoop lt rest.size 0 lastelt rest 0)

/-- The `for i in reversed(range(n // 2))` loop of CPython `heapq.heapify`. -/
def heapifyLoop (lt : α → α → Bool) (heap : Array α) : Nat → Array α
  | 0 => heap
  | i + 1 =>
    heapifyLoop lt (siftupLoop lt heap.size i (heap.getD i default) heap i) i

/-- CPython `heapq.heapify`. -/
def heapify (lt : α → α → Bool) (heap : Array α) : Array α :=
  heapifyLoop lt heap (heap.size / 2)

end Heapq

/-! ## The event-driven engine (`Simulator.run_event_driven`) -/

/-- The two event kinds, with their Python enum string values. -/
inductive EventType
  | job_release
  | job_completion
deriving DecidableEq, Repr

/-- `EventType.value` — the enum's string payload, compared by
`Event.__lt__`. -/
def EventType.value : EventType → String
  | .job_release => "job_release"
  | .job_completion => "job_completion"

/-- An event-queue entry.  A Python completion event holds a *reference* to
its job; the aliasing is modelled by storing the run-unique `job_id`, which
is also exactly what dataclass equality discriminates within a run. -/
structure Event where
  time : Nat
  event_type : EventType
  task : Option Task := none
  jobId : Option Nat := none
deriving DecidableEq, Repr

instance : Inhabited Event := ⟨⟨0, .job_release, none, none⟩⟩

/-- Python string `<`: lexicographic comparison by code point. -/
def strLt : List Char → List Char → Bool
  | [], [] => false
  | [], _ :: _ => true
  | _ :: _, [] => false
  | a :: as, b :: bs =>
    if a.toNat < b.toNat then true
    else if b.toNat < a.toNat then false
    else strLt as bs

/-- `Event.__lt__`: first by time, then by the event-type value strings
(`"job_completion" < "job_release"` lexicographically). -/
def Event.lt (a b : Event) : Bool :=
  if a.time ≠ b.time then decide (a.time < b.time)
  else strLt a.event_type.value.toList b.event_type.value.toList

/-- State of the event loop: simulator state, event queue (a CPython heap),
the job occupying the processor, and `last_time`. -/
structure EvLoop where
  st : EngineState
  eq : Array Event
  cur : Option Job
  last_time : Nat
deriving Repr

/-- `Simulator._schedule_completion_event`: completion at
`current_time + job.remaining` (jobs are dispatched with positive remaining
time, so the `Int → Nat` cast is lossless — claim C10). -/
def schedule_completion (j : Job) (eq : Array Event) (current_time : Nat) :
    Array Event :=
  Heapq.heappush Event.lt eq
    { time := current_time + j.remaining.toNat, event_type := .job_completion,
      jobId := some j.job_id }

/-- `Simulator._remove_completion_events`: filter out the job's completion
events, then re-heapify. -/
def remove_completion_events (jobId : Nat) (eq : Array Event) : Array Event :=
  Heapq.heapify Event.lt
    (eq.filter
      (fun e => !(e.event_type == EventType.job_completion && e.jobId == some jobId)))

/-- `Simulator._handle_job_release_event`: create and admit the job, then
schedule the task's next release if it falls before the horizon. -/
def handle_job_release (v : SchedulerVariant) (horizon : Nat) (task : Task)
    (st : EngineState) (eq : Array Event) : EngineState × Array Event :=
  let job : Job := { task := task, release_time := st.current_time,
                     remaining := (task.wcet : Int),
                     absolute_deadline := st.current_time + task.deadline,
                     job_id := st.job_counter }
  let st := { st with job_counter := st.job_counter + 1,
                      sched := Scheduler.add_job v st.sched job }
  let next_release_time := st.current_time + task.period
  let eq :=
    if next_release_time < horizon then
      Heapq.heappush Event.lt eq
        { time := next_release_time, event_type := .job_release, task := some task }
    else eq
  (st, eq)

/-- Inter-event backfill: over `[last_time, current_time)` fill the timeline
with the occupant (decrementing its remaining time by the elapsed span in one
step) or with idle entries. -/
def ev_backfill (last_time current_time : Nat) (st : EngineState)
    (cur : Option Job) : EngineState × Option Job :=
  match cur with
  | some j =>
    if last_time < current_time then
      let fill := (List.range' last_time (current_time - last_time)).map
        (fun t => (t, some j.task.name))
      ({ st with timeline := st.timeline ++ fill },
       some { j with
         remaining := j.remaining - ((current_time : Int) - (last_time : Int)) })
    else (st, some j)
  | none =>
    if last_time < current_time then
      let fill := (List.range' last_time (current_time - last_time)).map
        (fun t => (t, (none : Option String)))
      ({ st with timeline := st.timeline ++ fill }, (none : Option Job))
    else (st, (none : Option Job))

/-- Event-engine dispatch: pop the best pending job (if any) and schedule its
completion event. -/
def ev_dispatch (st : EngineState) (eq : Array Event) (current_time : Nat) :
    EngineState × Array Event × Option Job :=
  let p := Scheduler.get_next_job st.sched
  let st := { st with sched := p.2 }
  match p.1 with
  | some nj => (st, schedule_completion nj eq current_time, some nj)
  | none => (st, eq, none)

/-- The preemption/dispatch logic run after a release event: on preemption
the occupant's pending completion events are invalidated, the occupant is
returned to the queue and a completion is scheduled for the new occupant. -/
def ev_release_phase (v : SchedulerVariant) (preemptive : Bool)
    (st : EngineState) (eq : Array Event) (cur : Option Job)
    (current_time : Nat) : EngineState × Array Event × Option Job :=
  match cur with
  | some cj =>
    if preemptive && Scheduler.has_jobs st.sched then
      let p := Scheduler.get_next_job st.sched
      match p.1 with
      | some nj =>
        if should_preempt v cj nj then
          let eq := remove_completion_events cj.job_id eq
          let st := { st with sched := Scheduler.add_job v p.2 cj }
          (st, schedule_completion nj eq current_time, some nj)
        else ({ st with sched := Scheduler.add_job v p.2 nj }, eq, some cj)
      | none => ({ st with sched := p.2 }, eq, some cj)
    else (st, eq, some cj)
  | none =>
    if Scheduler.has_jobs st.sched then ev_dispatch st eq current_time
    else (st, eq, none)

/-- The handler of a completion event: when it still refers to the occupant
and the occupant's remaining time is ≤ 0, finalize it and dispatch the next
job. -/
def ev_completion_phase (st : EngineState) (eq : Array Event) (cur : Option Job)
    (current_time : Nat) (event : Event) : EngineState × Array Event × Option Job :=
  match cur with
  | some cj =>
    if event.jobId == some cj.job_id && cj.remaining ≤ 0 then
      let st := complete_job st cj
      if Scheduler.has_jobs st.sched then ev_dispatch st eq current_time
      else (st, eq, none)
    else (st, eq, some cj)
  | none => (st, eq, none)

/-- One iteration of the event loop: pop the earliest event, backfill the
timeline and the occupant's remaining time over `[last_time, current_time)`,
then handle the event (release: admit, schedule next release, preemption
check or dispatch; completion: finalize the occupant when it matches and its
remaining time is ≤ 0, then dispatch the next job). -/
def event_body (v : SchedulerVariant) (horizon : Nat) (preemptive : Bool)
    (s : EvLoop) : EvLoop :=
  match Heapq.heappop Event.lt s.eq with
  | none => s
  | some (event, eq) =>
    let current_time := event.time
    let bf := ev_backfill s.last_time current_time s.st s.cur
    let st := { bf.1 with current_time := current_time }
    match event.event_type with
    | .job_release =>
      let task := event.task.getD default
      let hr := handle_job_release v horizon task st eq
      let r := ev_release_phase v preemptive hr.1 hr.2 bf.2 current_time
      ⟨r.1, r.2.1, r.2.2, current_time⟩
    | .job_completion =>
      let r := ev_completion_phase st eq bf.2 current_time event
      ⟨r.1, r.2.1, r.2.2, current_time⟩

/-- The `while event_queue and event_queue[0].time < horizon` loop, on
explicit fuel standing in for the source's unbounded loop. -/
def event_loop (v : SchedulerVariant) (horizon : Nat) (preemptive : Bool) :
    Nat → EvLoop → EvLoop
  | 0, s => s
  | fuel + 1, s =>
    match s.eq.get? 0 with
    | none => s
    | some e0 =>
      if e0.time < horizon then
        event_loop v horizon preemptive fuel (event_body v horizon preemptive s)
      else s

/-- Fuel for the event loop: a crude upper bound on the number of processed
events for valid tasks (releases: at most one per task per time unit below
the horizon plus the seeds; completions: at most one per scheduled
completion, bounded by releases plus preemptions). -/
def eventFuel (tasks : List Task) (horizon : Nat) : Nat :=
  4 * (tasks.length + 1) * (horizon + 1) + 16

/-- The seeding of the event queue: one RELEASE per task at time 0, pushed
in task order. -/
def seedEvents (tasks : List Task) : Array Event :=
  tasks.foldl
    (fun eq task => Heapq.heappush Event.lt eq
      { time := 0, event_type := .job_release, task := some task })
    (#[] : Array Event)

/-- `Simulator.run_event_driven`: seed one release per task at time 0, run
the event loop, then backfill up to the horizon; a final occupant is
finalized only if its remaining time reached ≤ 0, and then with the *stale*
`current_time` of the last processed event.  Returns the result and the
post-run simulator state. -/
def run_event_driven (tasks : List Task) (v : SchedulerVariant) (horizon : Nat)
    (preemptive : Bool) (st0 : EngineState) : SimulationResult × EngineState :=
  let st := reset st0
  let s := event_loop v horizon preemptive (eventFuel tasks horizon)
    ⟨st, seedEvents tasks, none, 0⟩
  let st :=
    match s.cur with
    | some j =>
      if s.last_time < horizon then
        let j := { j with
          remaining := j.remaining - ((horizon : Int) - (s.last_time : Int)) }
        let fill := (List.range' s.last_time (horizon - s.last_time)).map
          (fun t => (t, some j.task.name))
        let st := { s.st with timeline := s.st.timeline ++ fill }
        if j.remaining ≤ 0 then complete_job st j else st
      else s.st
    | none =>
      if s.last_time < horizon then
        let fill := (List.range' s.last_time (horizon - s.last_time)).map
          (fun t => (t, (none : Option String)))
        { s.st with timeline := s.st.timeline ++ fill }
      else s.st
  (mkResult v horizon st, st)

/-! ## Specification-side definitions used to state the claims -/

/-- Total utilization as the spec's direct sum `Σ (wcet / period)`. -/
def utilization_direct (tasks : List Task) : ℚ :=
  (tasks.map (fun t => (t.wcet : ℚ) / (t.period : ℚ))).sum

/-- The RTA estimate sequence of one task: `k` refinement steps from the
initial estimate. -/
def rta_estimate (hp : List Task) (w : Nat) (k : Nat) : Nat :=
  (rta_next hp w)^[k] (rta_init hp w)

/-- A task passes response-time analysis (as the claim states it): its
estimate sequence reaches a fixed point while still at most the deadline. -/
def task_rta_ok (hp : List Task) (t : Task) : Prop :=
  ∃ k, rta_estimate hp t.wcet (k + 1) = rta_estimate hp t.wcet k ∧
    rta_estimate hp t.wcet k ≤ t.deadline

/-- All tasks of the (period-sorted) list pass RTA, each against the prefix
of earlier (higher-priority) tasks. -/
def all_rta_ok : List Task → List Task → Prop
  | _, [] => True
  | hp, t :: rest => task_rta_ok hp t ∧ all_rta_ok (hp ++ [t]) rest

/-- Every job stored in the ready queue has strictly positive remaining
execution time (claim C10). -/
def queue_pos (s : SchedState) : Prop :=
  ∀ e ∈ s.ready_queue, 0 < e.2.2.remaining

namespace Heapq

/-- The element at index `i` of the heap array. -/
def heapAt {α : Type} [Inhabited α] (h : Array α) (i : Nat) : α := h.getD i default

/-- The parent index in the implicit binary tree of CPython `heapq`. -/
def parentIdx (i : Nat) : Nat := (i - 1) / 2

/-- `s` is an ancestor of `p` in the implicit tree (reflexively). -/
def Anc (s p : Nat) : Prop := ∃ k, parentIdx^[k] p = s

/-- The heap-order property on every edge whose parent index is at least
`s`, measured through `m` (for the event queue, the event time). -/
def HeapFrom {α : Type} [Inhabited α] (m : α → Nat) (h : Array α) (s : Nat) :
    Prop :=
  ∀ c, 0 < c → c < h.size → s ≤ parentIdx c →
    m (heapAt h (parentIdx c)) ≤ m (heapAt h c)

/-- The full heap-order property w.r.t. the measure `m`. -/
def IsHeap {α : Type} [Inhabited α] (m : α → Nat) (h : Array α) : Prop :=
  HeapFrom m h 0

end Heapq

/-- The total key realised by `Event.__lt__`, as one natural number:
time-major, and at equal times JOB_COMPLETION strictly before JOB_RELEASE
(the enum value strings compare that way).  `Event.lt a b = true` implies
`evKey a ≤ evKey b` and `Event.lt a b = false` implies `evKey b ≤ evKey a`,
so a CPython heap ordered by `Event.lt` is a heap for this measure. -/
def evKey (e : Event) : Nat :=
  2 * e.time + (if e.event_type = EventType.job_release then 1 else 0)

/-- How many of the release times `t, t + p, t + 2·p, …` fall strictly
below the horizon (for `p ≥ 1`); `0` once `t ≥ horizon`. -/
def chainLen (horizon t p : Nat) : Nat := (horizon - t + p - 1) / p

/-- The potential of one queued event: a release is worth twice its
remaining release chain, a completion is worth one. -/
def evCredit (horizon : Nat) (e : Event) : Nat :=
  match e.event_type with
  | .job_release => 2 * chainLen horizon e.time (e.task.getD default).period
  | .job_completion => 1

/-- Termination potential of the event loop: the queued events' credits
plus one per ready-queue entry.  Every processed event strictly decreases
it. -/
def evPhi (horizon : Nat) (s : EvLoop) : Nat :=
  (s.eq.toList.map (evCredit horizon)).sum + s.st.sched.ready_queue.length

/-- The event loop's exit condition holds: the event queue is empty or its
earliest event lies at or beyond the horizon. -/
def EvDone (horizon : Nat) (s : EvLoop) : Prop :=
  ∀ e₀, s.eq.get? 0 = some e₀ → horizon ≤ e₀.time

/-- The inductive invariant of the event-driven loop (claim C10): the event
queue is an `evKey`-ordered heap of events no earlier than `last_time`;
every ready-queue job has positive remaining time; release events carry
tasks of the simulated set; every completion event belongs to the current
occupant; and an occupant has positive remaining time, with exactly one
completion event queued, at time `last_time + remaining` — so inter-event
decrements can never drive its remaining time negative. -/
def EvInv (tasks : List Task) (s : EvLoop) : Prop :=
  Heapq.IsHeap evKey s.eq ∧
  (∀ e ∈ s.eq.toList, s.last_time ≤ e.time) ∧
  queue_pos s.st.sched ∧
  (∀ e ∈ s.eq.toList, e.event_type = EventType.job_release →
    ∃ t, t ∈ tasks ∧ e.task = some t) ∧
  (∀ e ∈ s.eq.toList, e.event_type = EventType.job_completion →
    ∃ j, s.cur = some j ∧ e.jobId = some j.job_id) ∧
  (∀ j, s.cur = some j →
    0 < j.remaining ∧
    (s.eq.toList.countP (fun e => e.event_type == EventType.job_completion)) = 1 ∧
    ∀ e ∈ s.eq.toList, e.event_type = EventType.job_completion →
      (e.time : Int) = (s.last_time : Int) + j.remaining)

/-! ## Theorems -/

/-- Binary operation used throughout: a left fold of `+ f x` starting from
`a` is `a` plus the mapped sum. -/
theorem foldl_add_map_sum (f : Task → ℚ) (l : List Task) (a : ℚ) :
    l.foldl (fun acc t => acc + f t) a = a + (l.map f).sum := by
  induction l generalizing a with
  | nil => simp
  | cons t ts ih => simp [ih, add_assoc]

theorem utilization_eq_direct (tasks : List Task) :
    utilization tasks = utilization_direct tasks := by
  simpa [utilization, utilization_direct] using
    foldl_add_map_sum (fun t => (t.wcet : ℚ) / (t.period : ℚ)) tasks 0

/-- **C1** — the tick-driven and event-driven engines are *not* observably
equivalent.  Failing input: the single valid task `T1` with wcet 2, period
10, deadline 10, horizon 2, preemptive EDF.  `T1`'s only job finishes
exactly at the horizon; the tick engine never finalizes it (the end-of-loop
finalizer only fires for an *unfinished* occupant), while the event engine
does finalize it in its post-loop backfill, so the completed-job counts
differ (0 versus 1). -/
theorem c1_engines_disagree :
    Task.valid ⟨"T1", 2, 10, 10⟩ = true ∧
    (run [⟨"T1", 2, 10, 10⟩] .edf 2 true
      (initState [⟨"T1", 2, 10, 10⟩])).1.completed_jobs = 0 ∧
    (run_event_driven [⟨"T1", 2, 10, 10⟩] .edf 2 true
      (initState [⟨"T1", 2, 10, 10⟩])).1.completed_jobs = 1 := by
  refine ⟨by decide, by decide, by decide⟩

/-- **C2** — counterexample: at equal timestamps `Event.__lt__` does *not*
order JOB_RELEASE before JOB_COMPLETION; it orders the completion first,
because the comparison falls through to the enum value strings and
`"job_completion" < "job_release"`. -/
theorem c2_release_not_ordered_first :
    Event.lt { time := 5, event_type := .job_release }
      { time := 5, event_type := .job_completion } = false ∧
    Event.lt { time := 5, event_type := .job_completion }
      { time := 5, event_type := .job_release } = true := by
  decide

/-- **C2** (amended): whenever a RELEASE event and a COMPLETION event carry
equal timestamps, the ordering used by the event queue puts the COMPLETION
event strictly first: `Event.__lt__` compares the event-type value strings
and `"job_completion" < "job_release"`. -/
theorem c2_completion_before_release (e₁ e₂ : Event) (ht : e₁.time = e₂.time)
    (h₁ : e₁.event_type = .job_completion) (h₂ : e₂.event_type = .job_release) :
    Event.lt e₁ e₂ = true ∧ Event.lt e₂ e₁ = false := by
  obtain ⟨t₁, y₁, k₁, i₁⟩ := e₁
  obtain ⟨t₂, y₂, k₂, i₂⟩ := e₂
  simp only at ht h₁ h₂
  subst ht h₁ h₂
  simp [Event.lt]
  decide

/-- Witness for the C2 amendment at concrete events. -/
theorem c2_completion_before_release_witness :
    Event.lt { time := 7, event_type := .job_completion }
      { time := 7, event_type := .job_release } = true ∧
    Event.lt { time := 7, event_type := .job_release }
      { time := 7, event_type := .job_completion } = false :=
  c2_completion_before_release
    { time := 7, event_type := .job_completion }
    { time := 7, event_type := .job_release } rfl rfl rfl

/-- **C3** — counterexample to "an unfinished occupant is force-finalized by
both engines as if it completed exactly at the horizon".  Valid task `T1`
(wcet 5, period 10, deadline 2), horizon 3, preemptive RM: the occupant has
2 units left at the horizon.  The event engine does not finalize it at all
(0 completed jobs — so it contributes *zero* times to the statistics), and
the tick engine finalizes it with completion time `horizon - 1 = 2`, giving
lateness 0 and no missed deadline, whereas completing "exactly at the
horizon" (time 3 > deadline 2) would record a missed deadline. -/
theorem c3_force_finalize_counterexample :
    Task.valid ⟨"T1", 5, 10, 2⟩ = true ∧
    (run_event_driven [⟨"T1", 5, 10, 2⟩] .rm 3 true
      (initState [⟨"T1", 5, 10, 2⟩])).1.completed_jobs = 0 ∧
    (run [⟨"T1", 5, 10, 2⟩] .rm 3 true
      (initState [⟨"T1", 5, 10, 2⟩])).1.completed_jobs = 1 ∧
    (run [⟨"T1", 5, 10, 2⟩] .rm 3 true
      (initState [⟨"T1", 5, 10, 2⟩])).1.missed_deadlines = 0 := by
  refine ⟨by decide, by decide, by decide, by decide⟩

/-- **C4** — `is_scalable` is not total in the claimed sense: on the empty
task list `RMScheduler.is_scalable` returns the bare boolean `True` (not a
(boolean, message) pair), and on the RTA fallback path with the `console`
argument left to its `None` default it raises `AttributeError` from
`None.print` (the two valid tasks force utilization 2 past the
Liu-and-Layland bound).  Both contradict the method's own
`-> Tuple[bool, str]` annotation and its caller `cli.validate`, which
unpacks `is_scalable(tasks)` as a pair with no console argument. -/
theorem c4_is_scalable_bare_and_raises :
    RMScheduler.is_scalable [] none = .ok (.bare true) ∧
    RMScheduler.is_scalable [⟨"A", 1, 1, 1⟩, ⟨"B", 1, 1, 1⟩] none
      = .error .attributeError ∧
    Task.valid ⟨"A", 1, 1, 1⟩ = true ∧ Task.valid ⟨"B", 1, 1, 1⟩ = true := by
  have h : ll_bound_holds [⟨"A", 1, 1, 1⟩, ⟨"B", 1, 1, 1⟩] = false := by
    unfold ll_bound_holds utilization
    norm_num
  refine ⟨rfl, ?_, by decide, by decide⟩
  simp only [RMScheduler.is_scalable, h]
  rfl

/-- **C6** — `EDFScheduler.is_scalable` returns `true` exactly when the
direct-sum utilization `Σ (wcet / period)` is at most 1, paired with the
schedulability message, and `false` with the over-utilization message
otherwise. -/
theorem c6_edf_iff_utilization (tasks : List Task) :
    ((EDFScheduler.is_scalable tasks).1 = true ↔ utilization_direct tasks ≤ 1) ∧
    ((EDFScheduler.is_scalable tasks).2 =
      if utilization_direct tasks ≤ 1 then EDF_SCALABILITY_MESSAGE
      else EDF_NON_SCALABILITY_MESSAGE) := by
  have h := utilization_eq_direct tasks
  constructor
  · simp [EDFScheduler.is_scalable, h]
  · simp only [EDFScheduler.is_scalable, h]
    by_cases hc : utilization_direct tasks ≤ 1 <;> simp [hc]

/-- Unpacking `Task.valid`. -/
theorem Task.valid_pos {t : Task} (h : t.valid = true) :
    1 ≤ t.wcet ∧ 1 ≤ t.period ∧ 1 ≤ t.deadline ∧ t.deadline ≤ t.period := by
  simp only [Task.valid, Bool.and_eq_true, decide_eq_true_eq] at h
  omega

theorem ceildiv_pos {r p : Nat} (hr : 1 ≤ r) (hpp : 1 ≤ p) : 1 ≤ ceildiv r p := by
  unfold ceildiv
  rw [Nat.one_le_div_iff hpp]
  omega

theorem ceildiv_mono {r r' : Nat} (p : Nat) (h : r ≤ r') :
    ceildiv r p ≤ ceildiv r' p :=
  Nat.div_le_div_right (by omega)

theorem foldl_add_map_sum_nat (f : Task → Nat) (l : List Task) (a : Nat) :
    l.foldl (fun acc t => acc + f t) a = a + (l.map f).sum := by
  induction l generalizing a with
  | nil => simp
  | cons t ts ih => simp [ih, Nat.add_assoc]

theorem rta_next_eq_sum (hp : List Task) (w r : Nat) :
    rta_next hp w r = w + (hp.map (fun t => ceildiv r t.period * t.wcet)).sum := by
  simp [rta_next, foldl_add_map_sum_nat]

theorem rta_init_eq_sum (hp : List Task) (w : Nat) :
    rta_init hp w = w + (hp.map (fun t => t.wcet)).sum := by
  simp [rta_init, foldl_add_map_sum_nat]

theorem rta_next_mono (hp : List Task) (w : Nat) {r r' : Nat} (h : r ≤ r') :
    rta_next hp w r ≤ rta_next hp w r' := by
  rw [rta_next_eq_sum, rta_next_eq_sum]
  have hsum : (hp.map (fun t => ceildiv r t.period * t.wcet)).sum ≤
      (hp.map (fun t => ceildiv r' t.period * t.wcet)).sum := by
    apply List.sum_le_sum
    intro t ht
    exact Nat.mul_le_mul_right _ (ceildiv_mono _ h)
  omega

theorem rta_init_le_next (hp : List Task) (w : Nat) (hw : 1 ≤ w)
    (hv : ∀ t ∈ hp, t.valid = true) :
    rta_init hp w ≤ rta_next hp w (rta_init hp w) := by
  have h1 : 1 ≤ rta_init hp w := by rw [rta_init_eq_sum]; omega
  calc rta_init hp w = w + (hp.map (fun t => t.wcet)).sum := rta_init_eq_sum hp w
    _ ≤ w + (hp.map (fun t => ceildiv (rta_init hp w) t.period * t.wcet)).sum := by
        apply Nat.add_le_add_left
        apply List.sum_le_sum
        intro t ht
        have hp1 := (Task.valid_pos (hv t ht)).2.1
        calc t.wcet = 1 * t.wcet := (Nat.one_mul _).symm
          _ ≤ ceildiv (rta_init hp w) t.period * t.wcet :=
            Nat.mul_le_mul_right _ (ceildiv_pos h1 hp1)
    _ = rta_next hp w (rta_init hp w) := (rta_next_eq_sum hp w _).symm

theorem iterate_le_succ_of_expansive (f : Nat → Nat)
    (hmono : ∀ {a b : Nat}, a ≤ b → f a ≤ f b) {r : Nat} (hr : r ≤ f r) :
    ∀ k, f^[k] r ≤ f^[k + 1] r := by
  intro k
  induction k with
  | zero => simpa using hr
  | succ k ih =>
    rw [Function.iterate_succ_apply', Function.iterate_succ_apply']
    exact hmono ih

theorem iterate_chain_of_expansive (f : Nat → Nat)
    (hmono : ∀ {a b : Nat}, a ≤ b → f a ≤ f b) {r : Nat} (hr : r ≤ f r)
    {i j : Nat} (hij : i ≤ j) : f^[i] r ≤ f^[j] r := by
  induction hij with
  | refl => exact Nat.le_refl _
  | step _ ih =>
    exact Nat.le_trans ih (iterate_le_succ_of_expansive f hmono hr _)

theorem except_bind_ok {ε α β : Type} (a : α) (f : α → Except ε β) :
    (Except.ok a : Except ε α) >>= f = f a := rfl

theorem rta_loop_zero_eq (c : Option Unit) (hp : List Task) (w d r : Nat) :
    rta_loop c hp w d 0 r = .ok .fuelOut := rfl

/-- One unfolding step of the RTA loop with a console supplied (the prints
succeed and disappear). -/
theorem rta_loop_some_succ (hp : List Task) (w d fuel r : Nat) :
    rta_loop (some ()) hp w d (fuel + 1) r =
      (if d < rta_next hp w r then .ok .unschedulable
       else if rta_next hp w r = r then .ok (.converged r)
       else rta_loop (some ()) hp w d fuel (rta_next hp w r)) := by
  by_cases h1 : d < rta_next hp w r
  · rw [if_pos h1]
    show (if d < rta_next hp w r then _ else _) = _
    rw [if_pos h1]
    rfl
  · rw [if_neg h1]
    show (if d < rta_next hp w r then _ else _) = _
    rw [if_neg h1]
    by_cases h2 : rta_next hp w r = r
    · rw [if_pos h2, if_pos h2]
      rfl
    · rw [if_neg h2, if_neg h2]

/-- Fuel `d + 1` (the fuel `is_scalable` supplies) is always enough for the
RTA loop when the estimate is expansive: the loop reaches a verdict. -/
theorem rta_loop_ok (hp : List Task) (w d : Nat) :
    ∀ fuel r, r ≤ rta_next hp w r → d ≤ r + fuel →
      ∃ out, rta_loop (some ()) hp w d (fuel + 1) r = .ok out ∧ out ≠ .fuelOut := by
  intro fuel
  induction fuel with
  | zero =>
    intro r hr hd
    rw [rta_loop_some_succ]
    by_cases h1 : d < rta_next hp w r
    · exact ⟨.unschedulable, by rw [if_pos h1], by simp⟩
    · have h2 : rta_next hp w r = r := by omega
      exact ⟨.converged r, by rw [if_neg h1, if_pos h2], by simp⟩
  | succ fuel ih =>
    intro r hr hd
    rw [rta_loop_some_succ]
    by_cases h1 : d < rta_next hp w r
    · exact ⟨.unschedulable, by rw [if_pos h1], by simp⟩
    · by_cases h2 : rta_next hp w r = r
      · exact ⟨.converged r, by rw [if_neg h1, if_pos h2], by simp⟩
      · obtain ⟨out, hout, hne⟩ := ih (rta_next hp w r)
          (rta_next_mono hp w hr) (by omega)
        exact ⟨out, by rw [if_neg h1, if_neg h2]; exact hout, hne⟩

/-- A converged RTA verdict is a fixed point at most the deadline, reached
from the start by iterating the refinement step. -/
theorem rta_loop_converged (hp : List Task) (w d : Nat) :
    ∀ fuel r r', rta_loop (some ()) hp w d fuel r = .ok (.converged r') →
      r' ≤ d ∧ rta_next hp w r' = r' ∧ ∃ k, r' = (rta_next hp w)^[k] r := by
  intro fuel
  induction fuel with
  | zero => intro r r' h; rw [rta_loop_zero_eq] at h; simp at h
  | succ fuel ih =>
    intro r r' h
    rw [rta_loop_some_succ] at h
    by_cases h1 : d < rta_next hp w r
    · rw [if_pos h1] at h
      simp at h
    · rw [if_neg h1] at h
      by_cases h2 : rta_next hp w r = r
      · rw [if_pos h2] at h
        simp only [Except.ok.injEq, RTAOut.converged.injEq] at h
        subst h
        exact ⟨by omega, h2, 0, rfl⟩
      · rw [if_neg h2] at h
        obtain ⟨hle, hfix, k, hk⟩ := ih _ _ h
        refine ⟨hle, hfix, k + 1, ?_⟩
        rw [Function.iterate_succ_apply]
        exact hk

/-- If some iterate of the refinement step is a fixed point at most the
deadline, the RTA loop cannot declare the task unschedulable. -/
theorem rta_loop_not_unschedulable (hp : List Task) (w d : Nat) :
    ∀ fuel r, r ≤ rta_next hp w r →
      (∃ k, rta_next hp w ((rta_next hp w)^[k] r) = (rta_next hp w)^[k] r ∧
        (rta_next hp w)^[k] r ≤ d) →
      rta_loop (some ()) hp w d fuel r ≠ .ok .unschedulable := by
  intro fuel
  induction fuel with
  | zero => intro r _ _ h; rw [rta_loop_zero_eq] at h; simp at h
  | succ fuel ih =>
    intro r hr hex h
    rw [rta_loop_some_succ] at h
    by_cases h1 : d < rta_next hp w r
    · obtain ⟨k, hfix, hle⟩ := hex
      rcases k with _ | k
      · simp only [Function.iterate_zero, id] at hfix hle
        omega
      · have h1k : (rta_next hp w)^[1] r ≤ (rta_next hp w)^[k + 1] r :=
          iterate_chain_of_expansive (rta_next hp w)
            (fun hab => rta_next_mono hp w hab) hr (by omega)
        simp only [Function.iterate_one] at h1k
        omega
    · rw [if_neg h1] at h
      by_cases h2 : rta_next hp w r = r
      · rw [if_pos h2] at h
        simp at h
      · rw [if_neg h2] at h
        refine ih (rta_next hp w r) (rta_next_mono hp w hr) ?_ h
        obtain ⟨k, hfix, hle⟩ := hex
        rcases k with _ | k
        · exact absurd hfix h2
        · refine ⟨k, ?_, ?_⟩
          · rw [← Function.iterate_succ_apply]
            exact hfix
          · rw [← Function.iterate_succ_apply]
            exact hle

/-- `rta_tasks` with a console supplied returns exactly the RTA verdict: the
success pair when every task passes response-time analysis against its
higher-priority prefix, and the failure pair otherwise. -/
theorem rta_tasks_spec :
    ∀ (rest hp : List Task), (∀ t ∈ hp, t.valid = true) →
      (∀ t ∈ rest, t.valid = true) →
      (all_rta_ok hp rest →
        rta_tasks (some ()) hp rest = .ok (true, RM_RTA_SCALABILITY_MESSAGE)) ∧
      (¬ all_rta_ok hp rest →
        rta_tasks (some ()) hp rest = .ok (false, RM_RTA_NON_SCALABILITY_MESSAGE)) := by
  intro rest
  induction rest with
  | nil =>
    intro hp _ _
    exact ⟨fun _ => rfl, fun hn => absurd trivial hn⟩
  | cons t rest ih =>
    intro hp hvhp hvrest
    have hw : 1 ≤ t.wcet := (Task.valid_pos (hvrest t (by simp))).1
    have hr0 : rta_init hp t.wcet ≤ rta_next hp t.wcet (rta_init hp t.wcet) :=
      rta_init_le_next hp t.wcet hw hvhp
    obtain ⟨out, hout, hnf⟩ := rta_loop_ok hp t.wcet t.deadline t.deadline
      (rta_init hp t.wcet) hr0 (by omega)
    have hall : all_rta_ok hp (t :: rest) =
        (task_rta_ok hp t ∧ all_rta_ok (hp ++ [t]) rest) := rfl
    match out, hout, hnf with
    | .fuelOut, hout, hnf => exact absurd rfl hnf
    | .unschedulable, hout, _ =>
      have hnok : ¬ task_rta_ok hp t := by
        intro hex
        obtain ⟨k, hfix, hle⟩ := hex
        simp only [rta_estimate] at hfix hle
        rw [Function.iterate_succ_apply'] at hfix
        exact rta_loop_not_unschedulable hp t.wcet t.deadline (t.deadline + 1)
          (rta_init hp t.wcet) hr0 ⟨k, hfix, hle⟩ hout
      constructor
      · intro hok
        rw [hall] at hok
        exact absurd hok.1 hnok
      · intro _
        simp only [rta_tasks, hout, except_bind_ok]
    | .converged r', hout, _ =>
      obtain ⟨hle, hfix, k, hk⟩ := rta_loop_converged hp t.wcet t.deadline _ _ _ hout
      have hok : task_rta_ok hp t := by
        refine ⟨k, ?_, ?_⟩
        · simp only [rta_estimate]
          rw [Function.iterate_succ_apply', ← hk, hfix]
        · simp only [rta_estimate]
          rw [← hk]
          exact hle
      have hnd : ¬ (t.deadline < r') := by omega
      have hv' : ∀ u ∈ hp ++ [t], u.valid = true := by
        intro u hu
        rcases List.mem_append.mp hu with h | h
        · exact hvhp u h
        · rw [List.mem_singleton.mp h]
          exact hvrest t (by simp)
      have hvrest' : ∀ u ∈ rest, u.valid = true := fun u hu => hvrest u (by simp [hu])
      constructor
      · intro hokall
        rw [hall] at hokall
        simp only [rta_tasks, hout, except_bind_ok]
        rw [if_neg hnd]
        exact (ih (hp ++ [t]) hv' hvrest').1 hokall.2
      · intro hnall
        rw [hall] at hnall
        have hnrest : ¬ all_rta_ok (hp ++ [t]) rest := fun har => hnall ⟨hok, har⟩
        simp only [rta_tasks, hout, except_bind_ok]
        rw [if_neg hnd]
        exact (ih (hp ++ [t]) hv' hvrest').2 hnrest

theorem mem_insertByPeriod {x t : Task} {l : List Task} :
    x ∈ insertByPeriod t l ↔ x = t ∨ x ∈ l := by
  induction l with
  | nil => simp [insertByPeriod]
  | cons u us ih =>
    simp only [insertByPeriod]
    by_cases h : u.period ≤ t.period
    · rw [if_pos h]
      simp only [List.mem_cons, ih]
      tauto
    · rw [if_neg h]
      simp only [List.mem_cons]

theorem mem_sortByPeriod {x : Task} {l : List Task} :
    x ∈ sortByPeriod l ↔ x ∈ l := by
  suffices h : ∀ (l acc : List Task),
      (x ∈ l.foldl (fun acc t => insertByPeriod t acc) acc ↔ x ∈ acc ∨ x ∈ l) by
    simpa [sortByPeriod] using h l []
  intro l
  induction l with
  | nil => intro acc; simp
  | cons t ts ih =>
    intro acc
    rw [List.foldl_cons, ih]
    simp only [mem_insertByPeriod, List.mem_cons]
    tauto

/-- **C5** — `RMScheduler.is_scalable` with a console supplied (so the RTA
path's prints succeed), on valid non-empty task sets: when the Liu & Layland
bound holds it declares schedulability with the LL message without running
RTA; otherwise the verdict is decided by response-time analysis over the
tasks sorted ascending by period — the success pair exactly when every
task's iteration (initialized to its wcet plus the sum of higher-priority
wcets and refined with integer ceiling division) reaches a fixed point at
most its deadline, and the failure pair exactly otherwise. -/
theorem c5_rm_is_scalable_characterization (tasks : List Task)
    (hv : ∀ t ∈ tasks, t.valid = true) (hne : tasks ≠ []) :
    (ll_bound_holds tasks = true →
      RMScheduler.is_scalable tasks (some ()) =
        .ok (.pair true RM_LL_SCALABILITY_MESSAGE)) ∧
    (ll_bound_holds tasks = false →
      ((RMScheduler.is_scalable tasks (some ()) =
          .ok (.pair true RM_RTA_SCALABILITY_MESSAGE)) ↔
        all_rta_ok [] (sortByPeriod tasks)) ∧
      ((RMScheduler.is_scalable tasks (some ()) =
          .ok (.pair false RM_RTA_NON_SCALABILITY_MESSAGE)) ↔
        ¬ all_rta_ok [] (sortByPeriod tasks))) := by
  have hemp : tasks.isEmpty = false := by
    cases tasks
    · exact absurd rfl hne
    · rfl
  have hvs : ∀ t ∈ sortByPeriod tasks, t.valid = true := fun t ht =>
    hv t (mem_sortByPeriod.mp ht)
  have hspec := rta_tasks_spec (sortByPeriod tasks) []
    (by intro t ht; simp at ht) hvs
  constructor
  · intro hll
    simp only [RMScheduler.is_scalable, hemp, Bool.false_eq_true, if_false, hll,
      if_true]
  · intro hll
    have hs : RMScheduler.is_scalable tasks (some ()) =
        (rta_tasks (some ()) [] (sortByPeriod tasks)).map
          (fun p => RMScalableRet.pair p.1 p.2) := by
      simp only [RMScheduler.is_scalable, hemp, Bool.false_eq_true, if_false, hll]
      rcases rta_tasks (some ()) [] (sortByPeriod tasks) with e | p
      · rfl
      · rfl
    by_cases hall : all_rta_ok [] (sortByPeriod tasks)
    · rw [hs, hspec.1 hall]
      refine ⟨⟨fun _ => hall, fun _ => rfl⟩, ⟨fun h => ?_, fun hn => absurd hall hn⟩⟩
      simp [Except.map] at h
    · rw [hs, hspec.2 hall]
      refine ⟨⟨fun h => ?_, fun ha => absurd ha hall⟩, ⟨fun _ => hall, fun _ => rfl⟩⟩
      simp [Except.map] at h

/-- Witness for C5: the spec's Example-B task set passes via the LL-bound
path with the LL message, and the over-utilized pair of unit tasks takes the
RTA path to the failure pair, certifying a task set where RTA fails. -/
theorem c5_rm_witness :
    RMScheduler.is_scalable [⟨"T1", 1, 4, 4⟩, ⟨"T2", 2, 5, 5⟩, ⟨"T3", 1, 10, 10⟩]
      (some ()) = .ok (.pair true RM_LL_SCALABILITY_MESSAGE) ∧
    ¬ all_rta_ok [] (sortByPeriod [⟨"A", 1, 1, 1⟩, ⟨"B", 1, 1, 1⟩]) := by
  have hll1 : ll_bound_holds [⟨"T1", 1, 4, 4⟩, ⟨"T2", 2, 5, 5⟩, ⟨"T3", 1, 10, 10⟩]
      = true := by
    unfold ll_bound_holds utilization
    norm_num
  have hll2 : ll_bound_holds [⟨"A", 1, 1, 1⟩, ⟨"B", 1, 1, 1⟩] = false := by
    unfold ll_bound_holds utilization
    norm_num
  have heval : RMScheduler.is_scalable [⟨"A", 1, 1, 1⟩, ⟨"B", 1, 1, 1⟩] (some ())
      = .ok (.pair false RM_RTA_NON_SCALABILITY_MESSAGE) := by
    simp only [RMScheduler.is_scalable, hll2, Bool.false_eq_true, if_false]
    rfl
  constructor
  · exact (c5_rm_is_scalable_characterization _ (by decide) (by simp)).1 hll1
  · exact ((c5_rm_is_scalable_characterization _ (by decide) (by simp)).2 hll2).2.mp
      heval

/-- **C9** — for valid higher-priority tasks and positive wcet, successive
RTA estimates are monotonically non-decreasing, and the loop terminates for
every such task: with fuel `deadline + 1` (what `is_scalable` supplies) it
reaches a converged-or-unschedulable verdict, never fuel exhaustion. -/
theorem c9_rta_monotone_and_terminating (hp : List Task) (w d : Nat)
    (hw : 1 ≤ w) (hv : ∀ t ∈ hp, t.valid = true) :
    (∀ k, rta_estimate hp w k ≤ rta_estimate hp w (k + 1)) ∧
    (∃ out, rta_loop (some ()) hp w d (d + 1) (rta_init hp w) = .ok out ∧
      out ≠ .fuelOut) := by
  have hr0 := rta_init_le_next hp w hw hv
  constructor
  · intro k
    simpa only [rta_estimate] using
      iterate_le_succ_of_expansive (rta_next hp w)
        (fun hab => rta_next_mono hp w hab) hr0 k
  · exact rta_loop_ok hp w d d (rta_init hp w) hr0 (by omega)

/-- Witness for C9 at a concrete task. -/
theorem c9_rta_witness :
    rta_estimate [⟨"A", 1, 2, 2⟩] 1 0 ≤ rta_estimate [⟨"A", 1, 2, 2⟩] 1 1 ∧
    (∃ out, rta_loop (some ()) [⟨"A", 1, 2, 2⟩] 1 2 3
        (rta_init [⟨"A", 1, 2, 2⟩] 1) = .ok out ∧ out ≠ .fuelOut) := by
  have h := c9_rta_monotone_and_terminating [⟨"A", 1, 2, 2⟩] 1 2 (by decide)
    (by decide)
  exact ⟨h.1 0, h.2⟩

/-- **C7** — counterexample: the no-preemption branch of the tick engine's
preemption check does *not* leave the ready queue unchanged.  Occupant of RM
priority 5; queue holding one job of RM priority 7 under sequence number 0
with counter 1: the pending job is popped and re-admitted under the fresh
sequence number 1 (and the counter advances), so the (priority, sequence)
keys change. -/
theorem c7_requeue_changes_sequence_number :
    (preemption_check .rm
      { ready_queue := [(7, 0, ⟨⟨"B", 1, 7, 7⟩, 0, 1, 7, 1⟩)], counter := 1 }
      ⟨⟨"A", 1, 5, 5⟩, 0, 1, 5, 0⟩).1.ready_queue
      = [(7, 1, ⟨⟨"B", 1, 7, 7⟩, 0, 1, 7, 1⟩)] ∧
    ((preemption_check .rm
      { ready_queue := [(7, 0, ⟨⟨"B", 1, 7, 7⟩, 0, 1, 7, 1⟩)], counter := 1 }
      ⟨⟨"A", 1, 5, 5⟩, 0, 1, 5, 0⟩).1.ready_queue
      ≠ [(7, 0, ⟨⟨"B", 1, 7, 7⟩, 0, 1, 7, 1⟩)]) := by
  refine ⟨by decide, by decide⟩

theorem foldl_min_mem :
    ∀ (xs : List (Nat × Nat × Job)) (acc : Nat × Nat × Job),
      xs.foldl (fun m x => if Scheduler.entryLt x m then x else m) acc ∈ acc :: xs := by
  intro xs
  induction xs with
  | nil => intro acc; simp
  | cons x xs ih =>
    intro acc
    rw [List.foldl_cons]
    by_cases h : Scheduler.entryLt x acc
    · rw [if_pos h]
      have := ih x
      simp only [List.mem_cons] at this ⊢
      tauto
    · rw [if_neg h]
      have := ih acc
      simp only [List.mem_cons] at this ⊢
      tauto

theorem perm_cons_erase_entries :
    ∀ {l : List (Nat × Nat × Job)} {e : Nat × Nat × Job}, e ∈ l →
      List.Perm l (e :: l.erase e) := by
  intro l
  induction l with
  | nil => intro e h; simp at h
  | cons x xs ih =>
    intro e h
    by_cases hx : (x == e) = true
    · have hxe : x = e := eq_of_beq hx
      rw [List.erase_cons, if_pos hx, hxe]
    · rw [List.erase_cons, if_neg hx]
      have hmem : e ∈ xs := by
        rcases List.mem_cons.mp h with h1 | h1
        · exact absurd (h1 ▸ beq_self_eq_true x) hx
        · exact h1
      exact ((ih hmem).cons x).trans (List.Perm.swap e x _)

theorem qMin_mem {l : List (Nat × Nat × Job)} {e : Nat × Nat × Job}
    (h : Scheduler.qMin l = some e) : e ∈ l := by
  match l with
  | [] => simp [Scheduler.qMin] at h
  | x :: xs =>
    simp only [Scheduler.qMin, Option.some.injEq] at h
    subst h
    exact foldl_min_mem xs x

/-- **C7** (amended): when the best pending job's priority is not strictly
smaller than the occupant's, the tick engine's preemption check keeps the
occupant, and the ready queue ends with the same multiset of (priority, job)
pairs — but the popped best entry is re-admitted under a fresh sequence
number (the admission counter, which increments), so the (priority,
sequence-number) keys are not preserved. -/
theorem c7_preemption_check_requeues (v : SchedulerVariant) (sched : SchedState)
    (cj : Job) (e : Nat × Nat × Job)
    (hmin : Scheduler.qMin sched.ready_queue = some e)
    (hwf : e.1 = get_priority v e.2.2)
    (hnp : should_preempt v cj e.2.2 = false) :
    (preemption_check v sched cj).2 = cj ∧
    (preemption_check v sched cj).1.counter = sched.counter + 1 ∧
    (((preemption_check v sched cj).1.ready_queue.map
        (fun x => (x.1, x.2.2)) : List (Nat × Job)) : Multiset (Nat × Job)) =
      ((sched.ready_queue.map (fun x => (x.1, x.2.2)) : List (Nat × Job)) :
        Multiset (Nat × Job)) := by
  have hmem : e ∈ sched.ready_queue := qMin_mem hmin
  have hstep : preemption_check v sched cj =
      (Scheduler.add_job v { sched with ready_queue := sched.ready_queue.erase e }
        e.2.2, cj) := by
    unfold preemption_check Scheduler.get_next_job
    rw [hmin]
    simp only [hnp, Bool.false_eq_true, if_false]
  rw [hstep]
  refine ⟨rfl, rfl, ?_⟩
  simp only [Scheduler.add_job, List.map_append, List.map_cons, List.map_nil]
  have hperm : List.Perm sched.ready_queue (e :: sched.ready_queue.erase e) :=
    perm_cons_erase_entries hmem
  rw [Multiset.coe_eq_coe]
  have h1 : List.Perm
      ((sched.ready_queue.erase e).map (fun x => (x.1, x.2.2)) ++
        [(get_priority v e.2.2, e.2.2)])
      ((get_priority v e.2.2, e.2.2) ::
        (sched.ready_queue.erase e).map (fun x => (x.1, x.2.2))) :=
    List.perm_append_singleton _ _
  have h2 : (get_priority v e.2.2, e.2.2) ::
      (sched.ready_queue.erase e).map (fun x => (x.1, x.2.2)) =
      (e :: sched.ready_queue.erase e).map (fun x => (x.1, x.2.2)) := by
    rw [List.map_cons, ← hwf]
  have h3 : List.Perm ((e :: sched.ready_queue.erase e).map (fun x => (x.1, x.2.2)))
      (sched.ready_queue.map (fun x => (x.1, x.2.2))) :=
    (hperm.map (fun x => (x.1, x.2.2))).symm
  exact h1.trans (h2 ▸ h3)

/-- Witness for the C7 amendment at the concrete counterexample state. -/
theorem c7_preemption_check_requeues_witness :
    (preemption_check .rm
      { ready_queue := [(7, 0, ⟨⟨"B", 1, 7, 7⟩, 0, 1, 7, 1⟩)], counter := 1 }
      ⟨⟨"A", 1, 5, 5⟩, 0, 1, 5, 0⟩).2 = ⟨⟨"A", 1, 5, 5⟩, 0, 1, 5, 0⟩ ∧
    (preemption_check .rm
      { ready_queue := [(7, 0, ⟨⟨"B", 1, 7, 7⟩, 0, 1, 7, 1⟩)], counter := 1 }
      ⟨⟨"A", 1, 5, 5⟩, 0, 1, 5, 0⟩).1.counter = 1 + 1 ∧
    (((preemption_check .rm
        { ready_queue := [(7, 0, ⟨⟨"B", 1, 7, 7⟩, 0, 1, 7, 1⟩)], counter := 1 }
        ⟨⟨"A", 1, 5, 5⟩, 0, 1, 5, 0⟩).1.ready_queue.map
          (fun x => (x.1, x.2.2)) : List (Nat × Job)) : Multiset (Nat × Job)) =
      (([(7, 0, ⟨⟨"B", 1, 7, 7⟩, 0, 1, 7, 1⟩)].map
          (fun x => (x.1, x.2.2)) : List (Nat × Job)) : Multiset (Nat × Job)) :=
  c7_preemption_check_requeues .rm
    { ready_queue := [(7, 0, ⟨⟨"B", 1, 7, 7⟩, 0, 1, 7, 1⟩)], counter := 1 }
    ⟨⟨"A", 1, 5, 5⟩, 0, 1, 5, 0⟩ (7, 0, ⟨⟨"B", 1, 7, 7⟩, 0, 1, 7, 1⟩) rfl rfl rfl

/-! ### State restoration (claim C8) -/

theorem updStats_keys (s : List (String × TaskStats)) (n : String)
    (f : TaskStats → TaskStats) :
    (updStats s n f).map Prod.fst = s.map Prod.fst := by
  unfold updStats
  induction s with
  | nil => rfl
  | cons p ps ih =>
    simp only [List.map_cons, ih]
    by_cases h : p.1 = n
    · simp [h]
    · simp [h]

theorem complete_job_keys (st : EngineState) (j : Job) :
    (complete_job st j).task_stats.map Prod.fst = st.task_stats.map Prod.fst := by
  simp only [complete_job]
  split
  · simp [updStats_keys]
  · simp [updStats_keys]

theorem release_jobs_stats (tasks : List Task) (v : SchedulerVariant)
    (st : EngineState) :
    (release_jobs tasks v st).task_stats = st.task_stats := by
  unfold release_jobs
  induction tasks generalizing st with
  | nil => rfl
  | cons t ts ih =>
    rw [List.foldl_cons]
    by_cases h : st.current_time % t.period = 0
    · rw [if_pos h]; exact ih _
    · rw [if_neg h]; exact ih _

theorem completion_phase_keys (st : EngineState) (cur : Option Job) :
    (completion_phase st cur).1.task_stats.map Prod.fst =
      st.task_stats.map Prod.fst := by
  unfold completion_phase
  rcases cur with _ | j
  · rfl
  · by_cases h : j.is_finished
    · simp only [h, if_true]
      exact complete_job_keys st j
    · simp only [h, Bool.false_eq_true, if_false]

theorem preemption_phase_stats (v : SchedulerVariant) (preemptive : Bool)
    (st : EngineState) (cur : Option Job) :
    (preemption_phase v preemptive st cur).1.task_stats = st.task_stats := by
  unfold preemption_phase
  rcases cur with _ | cj
  · rfl
  · by_cases h : preemptive && Scheduler.has_jobs st.sched
    · simp only [h, if_true]
    · simp only [h, Bool.false_eq_true, if_false]

theorem dispatch_phase_stats (st : EngineState) (cur : Option Job) :
    (dispatch_phase st cur).1.task_stats = st.task_stats := by
  unfold dispatch_phase
  rcases cur with _ | j <;> rfl

theorem execute_phase_stats (time : Nat) (st : EngineState) (cur : Option Job) :
    (execute_phase time st cur).1.task_stats = st.task_stats := by
  unfold execute_phase
  rcases cur with _ | j <;> rfl

theorem tick_step_keys (tasks : List Task) (v : SchedulerVariant)
    (preemptive : Bool) (acc : EngineState × Option Job) (time : Nat) :
    (tick_step tasks v preemptive acc time).1.task_stats.map Prod.fst =
      acc.1.task_stats.map Prod.fst := by
  unfold tick_step
  rw [execute_phase_stats, dispatch_phase_stats, preemption_phase_stats,
    completion_phase_keys, release_jobs_stats]

theorem foldl_tick_keys (tasks : List Task) (v : SchedulerVariant)
    (preemptive : Bool) :
    ∀ (l : List Nat) (acc : EngineState × Option Job),
      (l.foldl (tick_step tasks v preemptive) acc).1.task_stats.map Prod.fst =
        acc.1.task_stats.map Prod.fst := by
  intro l
  induction l with
  | nil => intro acc; rfl
  | cons x xs ih =>
    intro acc
    rw [List.foldl_cons, ih, tick_step_keys]

theorem reset_keys (st : EngineState) :
    (reset st).task_stats.map Prod.fst = st.task_stats.map Prod.fst := by
  unfold reset
  rw [List.map_map]
  rfl

theorem reset_congr {a b : EngineState}
    (h : a.task_stats.map Prod.fst = b.task_stats.map Prod.fst) :
    reset a = reset b := by
  have key : ∀ (l : List (String × TaskStats)),
      l.map (fun p => (p.1, (⟨0, 0, 0⟩ : TaskStats))) =
        (l.map Prod.fst).map (fun n => (n, (⟨0, 0, 0⟩ : TaskStats))) := by
    intro l
    rw [List.map_map]
    rfl
  unfold reset Scheduler.clear
  rw [key, key, h]

theorem run_keys (tasks : List Task) (v : SchedulerVariant) (horizon : Nat)
    (preemptive : Bool) (st : EngineState) :
    (run tasks v horizon preemptive st).2.task_stats.map Prod.fst =
      st.task_stats.map Prod.fst := by
  have hl : (tick_loop tasks v preemptive horizon st).1.task_stats.map Prod.fst =
      (reset st).task_stats.map Prod.fst := by
    unfold tick_loop
    exact foldl_tick_keys tasks v preemptive (List.range horizon) (reset st, none)
  rcases h : tick_loop tasks v preemptive horizon st with ⟨st1, cur⟩
  rw [h] at hl
  simp only at hl
  have hk : st1.task_stats.map Prod.fst = st.task_stats.map Prod.fst := by
    rw [hl, reset_keys]
  unfold run
  rw [h]
  rcases cur with _ | j
  · exact hk
  · simp only
    by_cases hf : j.is_finished
    · simp only [hf, Bool.not_true, Bool.false_eq_true, if_false]
      exact hk
    · simp only [hf, Bool.not_false, if_true]
      rw [complete_job_keys]
      exact hk

theorem handle_job_release_stats (v : SchedulerVariant) (horizon : Nat)
    (task : Task) (st : EngineState) (eq : Array Event) :
    (handle_job_release v horizon task st eq).1.task_stats = st.task_stats := by
  unfold handle_job_release
  rfl

theorem ev_backfill_stats (last_time current_time : Nat) (st : EngineState)
    (cur : Option Job) :
    (ev_backfill last_time current_time st cur).1.task_stats = st.task_stats := by
  unfold ev_backfill
  rcases cur with _ | j
  · by_cases h : last_time < current_time
    · simp only [h, if_true]
    · simp only [h, if_false]
  · by_cases h : last_time < current_time
    · simp only [h, if_true]
    · simp only [h, if_false]

theorem ev_dispatch_stats (st : EngineState) (eq : Array Event)
    (current_time : Nat) :
    (ev_dispatch st eq current_time).1.task_stats = st.task_stats := by
  unfold ev_dispatch
  rcases h : (Scheduler.get_next_job st.sched).1 with _ | j <;> simp [h]

theorem ev_release_phase_stats (v : SchedulerVariant) (preemptive : Bool)
    (st : EngineState) (eq : Array Event) (cur : Option Job)
    (current_time : Nat) :
    (ev_release_phase v preemptive st eq cur current_time).1.task_stats =
      st.task_stats := by
  unfold ev_release_phase
  rcases cur with _ | cj
  · by_cases h : Scheduler.has_jobs st.sched
    · simp only [h, if_true]
      exact ev_dispatch_stats st eq current_time
    · simp only [h, Bool.false_eq_true, if_false]
  · by_cases h : preemptive && Scheduler.has_jobs st.sched
    · simp only [h, if_true]
      rcases hj : (Scheduler.get_next_job st.sched).1 with _ | nj
      · rfl
      · by_cases hsp : should_preempt v cj nj
        · simp only [hsp, if_true]
        · simp only [hsp, Bool.false_eq_true, if_false]
    · simp only [h, Bool.false_eq_true, if_false]

theorem ev_completion_phase_keys (st : EngineState) (eq : Array Event)
    (cur : Option Job) (current_time : Nat) (event : Event) :
    (ev_completion_phase st eq cur current_time event).1.task_stats.map Prod.fst =
      st.task_stats.map Prod.fst := by
  unfold ev_completion_phase
  rcases cur with _ | cj
  · rfl
  · by_cases h : event.jobId == some cj.job_id && cj.remaining ≤ 0
    · simp only [h, if_true]
      by_cases h2 : Scheduler.has_jobs (complete_job st cj).sched
      · simp only [h2, if_true]
        rw [ev_dispatch_stats]
        exact complete_job_keys st cj
      · simp only [h2, Bool.false_eq_true, if_false]
        exact complete_job_keys st cj
    · simp only [h, Bool.false_eq_true, if_false]

theorem event_body_keys (v : SchedulerVariant) (horizon : Nat)
    (preemptive : Bool) (s : EvLoop) :
    (event_body v horizon preemptive s).st.task_stats.map Prod.fst =
      s.st.task_stats.map Prod.fst := by
  unfold event_body
  rcases hp : Heapq.heappop Event.lt s.eq with _ | ⟨event, eq⟩
  · rfl
  · simp only
    rcases event.event_type with _ | _
    · simp only
      rw [ev_release_phase_stats, handle_job_release_stats]
      simp only
      rw [ev_backfill_stats]
    · simp only
      rw [ev_completion_phase_keys]
      simp only
      rw [ev_backfill_stats]

theorem event_loop_keys (v : SchedulerVariant) (horizon : Nat)
    (preemptive : Bool) :
    ∀ (fuel : Nat) (s : EvLoop),
      (event_loop v horizon preemptive fuel s).st.task_stats.map Prod.fst =
        s.st.task_stats.map Prod.fst := by
  intro fuel
  induction fuel with
  | zero => intro s; rfl
  | succ fuel ih =>
    intro s
    unfold event_loop
    rcases hq : s.eq.get? 0 with _ | e0
    · rfl
    · by_cases h : e0.time < horizon
      · simp only [h, if_true]
        rw [ih, event_body_keys]
      · simp only [h, if_false]

theorem run_event_driven_keys (tasks : List Task) (v : SchedulerVariant)
    (horizon : Nat) (preemptive : Bool) (st : EngineState) :
    (run_event_driven tasks v horizon preemptive st).2.task_stats.map Prod.fst =
      st.task_stats.map Prod.fst := by
  unfold run_event_driven
  simp only
  set s := event_loop v horizon preemptive (eventFuel tasks horizon)
    { st := reset st, eq := seedEvents tasks, cur := none, last_time := 0 }
    with hs
  have hkey : s.st.task_stats.map Prod.fst = st.task_stats.map Prod.fst := by
    rw [hs, event_loop_keys]
    exact reset_keys st
  rcases s.cur with _ | j
  · by_cases h : s.last_time < horizon
    · simp only [h, if_true]
      exact hkey
    · simp only [h, if_false]
      exact hkey
  · by_cases h : s.last_time < horizon
    · simp only [h, if_true]
      by_cases h2 : (j.remaining - ((horizon : Int) - (s.last_time : Int))) ≤ 0
      · simp only [h2, if_true]
        rw [complete_job_keys]
        exact hkey
      · simp only [h2, if_false]
        exact hkey
    · simp only [h, if_false]
      exact hkey

/-- **C8** — invoking `run` (or `run_event_driven`) a second time on the
simulator state the first invocation left behind yields the identical
result: `_reset` restores the timeline, every aggregate and per-task counter,
the job-id counter, the ready queue and its sequence counter, so a run
depends on the incoming mutable state only through the task-stat keys, which
every run preserves. -/
theorem c8_run_idempotent (tasks : List Task) (v : SchedulerVariant)
    (horizon : Nat) (preemptive : Bool) (st : EngineState) :
    (run tasks v horizon preemptive
        (run tasks v horizon preemptive st).2).1 =
      (run tasks v horizon preemptive st).1 ∧
    (run_event_driven tasks v horizon preemptive
        (run_event_driven tasks v horizon preemptive st).2).1 =
      (run_event_driven tasks v horizon preemptive st).1 := by
  have hrun : ∀ a b : EngineState, reset a = reset b →
      run tasks v horizon preemptive a = run tasks v horizon preemptive b := by
    intro a b hab
    unfold run tick_loop
    rw [hab]
  have hev : ∀ a b : EngineState, reset a = reset b →
      run_event_driven tasks v horizon preemptive a =
        run_event_driven tasks v horizon preemptive b := by
    intro a b hab
    unfold run_event_driven
    rw [hab]
  constructor
  · rw [hrun (run tasks v horizon preemptive st).2 st
      (reset_congr (run_keys tasks v horizon preemptive st))]
  · rw [hev (run_event_driven tasks v horizon preemptive st).2 st
      (reset_congr (run_event_driven_keys tasks v horizon preemptive st))]

/-! ### The end-of-loop finalization (claim C3) -/

theorem complete_job_time (st : EngineState) (j : Job) :
    (complete_job st j).current_time = st.current_time := by
  simp only [complete_job]
  split <;> rfl

theorem release_jobs_time (tasks : List Task) (v : SchedulerVariant)
    (st : EngineState) :
    (release_jobs tasks v st).current_time = st.current_time := by
  unfold release_jobs
  induction tasks generalizing st with
  | nil => rfl
  | cons t ts ih =>
    rw [List.foldl_cons]
    by_cases h : st.current_time % t.period = 0
    · rw [if_pos h]; exact ih _
    · rw [if_neg h]; exact ih _

theorem completion_phase_time (st : EngineState) (cur : Option Job) :
    (completion_phase st cur).1.current_time = st.current_time := by
  unfold completion_phase
  rcases cur with _ | j
  · rfl
  · by_cases h : j.is_finished
    · simp only [h, if_true]
      exact complete_job_time st j
    · simp only [h, Bool.false_eq_true, if_false]

theorem preemption_phase_time (v : SchedulerVariant) (preemptive : Bool)
    (st : EngineState) (cur : Option Job) :
    (preemption_phase v preemptive st cur).1.current_time = st.current_time := by
  unfold preemption_phase
  rcases cur with _ | cj
  · rfl
  · by_cases h : preemptive && Scheduler.has_jobs st.sched
    · simp only [h, if_true]
    · simp only [h, Bool.false_eq_true, if_false]

theorem dispatch_phase_time (st : EngineState) (cur : Option Job) :
    (dispatch_phase st cur).1.current_time = st.current_time := by
  unfold dispatch_phase
  rcases cur with _ | j <;> rfl

theorem execute_phase_time (time : Nat) (st : EngineState) (cur : Option Job) :
    (execute_phase time st cur).1.current_time = st.current_time := by
  unfold execute_phase
  rcases cur with _ | j <;> rfl

theorem tick_step_time (tasks : List Task) (v : SchedulerVariant)
    (preemptive : Bool) (acc : EngineState × Option Job) (time : Nat) :
    (tick_step tasks v preemptive acc time).1.current_time = time := by
  unfold tick_step
  rw [execute_phase_time, dispatch_phase_time, preemption_phase_time,
    completion_phase_time, release_jobs_time]

/-- After a positive number of ticks the clock reads `horizon - 1`: the last
iteration of the loop set `current_time` to the final tick. -/
theorem tick_loop_time (tasks : List Task) (v : SchedulerVariant)
    (preemptive : Bool) (horizon : Nat) (st : EngineState) (h : 0 < horizon) :
    (tick_loop tasks v preemptive horizon st).1.current_time = horizon - 1 := by
  rcases horizon with _ | n
  · omega
  · unfold tick_loop
    rw [List.range_succ, List.foldl_append, List.foldl_cons, List.foldl_nil,
      tick_step_time]
    omega

/-- The exact accounting of `_complete_job` at the state's `current_time`. -/
theorem complete_job_counts (st : EngineState) (j : Job) :
    (complete_job st j).completed_jobs = st.completed_jobs + 1 ∧
    (complete_job st j).total_lateness = st.total_lateness +
      max 0 ((st.current_time : Int) - (j.absolute_deadline : Int)) := by
  simp only [complete_job]
  by_cases h : (0 : Int) < max 0 ((st.current_time : Int) - (j.absolute_deadline : Int))
  · rw [if_pos h]
    exact ⟨rfl, rfl⟩
  · rw [if_neg h]
    have h0 : max 0 ((st.current_time : Int) - (j.absolute_deadline : Int)) = 0 :=
      le_antisymm (not_lt.mp h) (le_max_left _ _)
    exact ⟨rfl, by rw [h0, add_zero]⟩

/-- **C3** (amended) — what the final step actually does.  Tick engine: for a
positive horizon, an occupant left *unfinished* by the loop is finalized as
if it completed at `horizon - 1` (the stale `current_time` of the last
tick), adding `max 0 ((horizon - 1) - deadline)` lateness.  Event engine: the
occupant left at the end of the event loop is finalized only when the final
backfill drives its remaining time to ≤ 0 — and then with the stale
`current_time` of the last processed event — while an occupant still
unfinished at the horizon contributes nothing to the statistics. -/
theorem c3_final_step_behaviour (tasks : List Task) (v : SchedulerVariant)
    (horizon : Nat) (preemptive : Bool) (st : EngineState) (j : Job) :
    (0 < horizon → (tick_loop tasks v preemptive horizon st).2 = some j →
      j.is_finished = false →
      (run tasks v horizon preemptive st).1.completed_jobs =
        (tick_loop tasks v preemptive horizon st).1.completed_jobs + 1 ∧
      (run tasks v horizon preemptive st).1.total_lateness =
        (tick_loop tasks v preemptive horizon st).1.total_lateness +
          max 0 (((horizon : Int) - 1) - (j.absolute_deadline : Int))) ∧
    (∀ s : EvLoop,
      event_loop v horizon preemptive (eventFuel tasks horizon)
        ⟨reset st, seedEvents tasks, none, 0⟩ = s →
      s.cur = some j → s.last_time < horizon →
      ((0 < j.remaining - ((horizon : Int) - (s.last_time : Int)) →
        (run_event_driven tasks v horizon preemptive st).1.completed_jobs =
          s.st.completed_jobs) ∧
       (j.remaining - ((horizon : Int) - (s.last_time : Int)) ≤ 0 →
        (run_event_driven tasks v horizon preemptive st).1.completed_jobs =
          s.st.completed_jobs + 1 ∧
        (run_event_driven tasks v horizon preemptive st).1.total_lateness =
          s.st.total_lateness +
            max 0 ((s.st.current_time : Int) - (j.absolute_deadline : Int))))) := by
  constructor
  · intro hpos hcur hfin
    have htime := tick_loop_time tasks v preemptive horizon st hpos
    rcases hl : tick_loop tasks v preemptive horizon st with ⟨st1, cur⟩
    rw [hl] at hcur htime
    simp only at hcur htime
    subst hcur
    unfold run
    rw [hl]
    simp only [hfin, Bool.not_false, if_true, mkResult]
    have hc := complete_job_counts st1 j
    rw [htime] at hc
    have hcast : ((horizon - 1 : Nat) : Int) = (horizon : Int) - 1 := by omega
    rw [hcast] at hc
    exact ⟨hc.1, hc.2⟩
  · intro s hs hcur hlt
    simp only [run_event_driven]
    rw [hs, hcur]
    simp only [hlt, if_true]
    constructor
    · intro hrem
      have hng : ¬ (j.remaining - ((horizon : Int) - (s.last_time : Int)) ≤ 0) := by
        omega
      simp only [hng, if_false, mkResult]
    · intro hrem
      simp only [hrem, if_true, mkResult]
      have hc := complete_job_counts
        { s.st with timeline := s.st.timeline ++ ((List.range' s.last_time (horizon - s.last_time)).map (fun t => (t, some j.task.name))) }
        { j with remaining := j.remaining - ((horizon : Int) - (s.last_time : Int)) }
      exact ⟨hc.1, hc.2⟩

/-- Witness for the C3 amendment.  Tick side at `T1 (wcet 5, period 10,
deadline 2)`, horizon 3 (the occupant is unfinished, finalized at time 2,
zero lateness); event side first at the same input (remaining 2 > 0 at the
horizon: no finalization), then at `T2 (wcet 2, period 10, deadline 2)`,
horizon 2 (remaining reaches 0: finalized with the stale event time 0). -/
theorem c3_final_step_behaviour_witness :
    ((run [⟨"T1", 5, 10, 2⟩] .rm 3 true (initState [⟨"T1", 5, 10, 2⟩])).1.completed_jobs =
      (tick_loop [⟨"T1", 5, 10, 2⟩] .rm true 3 (initState [⟨"T1", 5, 10, 2⟩])).1.completed_jobs + 1 ∧
     (run [⟨"T1", 5, 10, 2⟩] .rm 3 true (initState [⟨"T1", 5, 10, 2⟩])).1.total_lateness =
      (tick_loop [⟨"T1", 5, 10, 2⟩] .rm true 3 (initState [⟨"T1", 5, 10, 2⟩])).1.total_lateness +
        max 0 (((3 : Int) - 1) - ((2 : Nat) : Int))) ∧
    ((run_event_driven [⟨"T1", 5, 10, 2⟩] .rm 3 true (initState [⟨"T1", 5, 10, 2⟩])).1.completed_jobs =
      (event_loop .rm 3 true (eventFuel [⟨"T1", 5, 10, 2⟩] 3)
        ⟨reset (initState [⟨"T1", 5, 10, 2⟩]), seedEvents [⟨"T1", 5, 10, 2⟩], none, 0⟩).st.completed_jobs) ∧
    ((run_event_driven [⟨"T2", 2, 10, 2⟩] .rm 2 true (initState [⟨"T2", 2, 10, 2⟩])).1.completed_jobs =
      (event_loop .rm 2 true (eventFuel [⟨"T2", 2, 10, 2⟩] 2)
        ⟨reset (initState [⟨"T2", 2, 10, 2⟩]), seedEvents [⟨"T2", 2, 10, 2⟩], none, 0⟩).st.completed_jobs + 1) := by
  refine ⟨?_, ?_, ?_⟩
  · exact (c3_final_step_behaviour [⟨"T1", 5, 10, 2⟩] .rm 3 true
      (initState [⟨"T1", 5, 10, 2⟩]) ⟨⟨"T1", 5, 10, 2⟩, 0, 2, 2, 0⟩).1
      (by decide) (by decide) (by decide)
  · exact ((c3_final_step_behaviour [⟨"T1", 5, 10, 2⟩] .rm 3 true
      (initState [⟨"T1", 5, 10, 2⟩]) ⟨⟨"T1", 5, 10, 2⟩, 0, 5, 2, 0⟩).2
      _ rfl (by decide) (by decide)).1 (by decide)
  · exact (((c3_final_step_behaviour [⟨"T2", 2, 10, 2⟩] .rm 2 true
      (initState [⟨"T2", 2, 10, 2⟩]) ⟨⟨"T2", 2, 10, 2⟩, 0, 2, 2, 0⟩).2
      _ rfl (by decide) (by decide)).2 (by decide)).1

/-! ### Verified CPython heap operations (claim C10)

The event queue's observable behaviour rests on three facts about the
CPython `heapq` embedding: each operation permutes the expected multiset of
entries, preserves the heap-order property measured through the event time,
and therefore `heappop` returns an element of minimal time.  The proofs
follow the hole/sift-state style of array-heap verifications. -/

namespace Heapq

theorem getD_irrel {α : Type} (h : Array α) (i : Nat) (d₁ d₂ : α)
    (hi : i < h.size) : h.getD i d₁ = h.getD i d₂ := by
  unfold Array.getD
  rw [dif_pos hi, dif_pos hi]

theorem getD_eq_heapAt {α : Type} [Inhabited α] (h : Array α) (i : Nat) (d : α)
    (hi : i < h.size) : h.getD i d = heapAt h i := getD_irrel h i d default hi

theorem heapAt_setD_self {α : Type} [Inhabited α] (h : Array α) (i : Nat)
    (v : α) (hi : i < h.size) : heapAt (h.setD i v) i = v := by
  unfold heapAt Array.setD Array.getD
  rw [dif_pos hi]
  simp [hi]

theorem heapAt_setD_ne {α : Type} [Inhabited α] (h : Array α) {i j : Nat}
    (v : α) (hij : i ≠ j) : heapAt (h.setD i v) j = heapAt h j := by
  unfold heapAt Array.setD Array.getD
  by_cases hi : i < h.size
  · rw [dif_pos hi]
    by_cases hj : j < h.size
    · rw [dif_pos (by simpa using hj), dif_pos hj]
      simp [Array.get_set, Ne.symm hij, hij]
    · rw [dif_neg (by simpa using hj), dif_neg hj]
  · rw [dif_neg hi]

theorem toList_setD {α : Type} (h : Array α) (i : Nat) (v : α) :
    (h.setD i v).toList = h.toList.set i v := by
  unfold Array.setD
  by_cases hi : i < h.size
  · rw [dif_pos hi]
    rfl
  · rw [dif_neg hi]
    have hlen : h.toList.length ≤ i := by
      simpa [Array.length_toList] using Nat.le_of_not_lt hi
    rw [List.set_eq_of_length_le hlen]

theorem parentIdx_lt {i : Nat} (hi : 0 < i) : parentIdx i < i := by
  unfold parentIdx
  omega

theorem anc_refl (s : Nat) : Anc s s := ⟨0, rfl⟩

theorem anc_parent {s p : Nat} (h : Anc s p) (hne : s < p) :
    Anc s (parentIdx p) := by
  obtain ⟨k, hk⟩ := h
  cases k with
  | zero => simp at hk; omega
  | succ k => exact ⟨k, by rw [← Function.iterate_succ_apply]; exact hk⟩

theorem anc_le {s p : Nat} (h : Anc s p) : s ≤ p := by
  obtain ⟨k, hk⟩ := h
  induction k generalizing p with
  | zero => simp at hk; omega
  | succ k ih =>
    rw [Function.iterate_succ_apply] at hk
    have h1 := ih hk
    have h2 : parentIdx p ≤ p := by unfold parentIdx; omega
    omega

theorem anc_child {s p c : Nat} (h : Anc s p) (hc : parentIdx c = p) :
    Anc s c := by
  obtain ⟨k, hk⟩ := h
  exact ⟨k + 1, by rw [Function.iterate_succ_apply, hc]; exact hk⟩

theorem anc_zero (p : Nat) : Anc 0 p := by
  induction p using Nat.strong_induction_on with
  | _ p ih =>
    cases Nat.eq_zero_or_pos p with
    | inl h => exact h ▸ anc_refl 0
    | inr h =>
      obtain ⟨k, hk⟩ := ih (parentIdx p) (parentIdx_lt h)
      exact ⟨k + 1, by rw [Function.iterate_succ_apply]; exact hk⟩

theorem count_set {β : Type} [DecidableEq β] :
    ∀ (l : List β) (i : Nat) (a x : β) (hi : i < l.length),
      (l.set i a).count x =
        l.count x + (if a = x then 1 else 0) - (if l[i] = x then 1 else 0) := by
  intro l
  induction l with
  | nil => intro i a x hi; simp at hi
  | cons c t ih =>
    intro i a x hi
    cases i with
    | zero =>
      simp only [List.set_cons_zero, List.getElem_cons_zero, List.count_cons]
      by_cases hax : a = x <;> by_cases hcx : c = x <;>
        simp [hax, hcx, beq_iff_eq] <;> omega
    | succ n =>
      have hn : n < t.length := by simpa using hi
      simp only [List.set_cons_succ, List.count_cons, List.getElem_cons_succ]
      rw [ih n a x hn]
      have hcount : (if t[n] = x then 1 else 0) ≤ t.count x := by
        by_cases ht : t[n] = x
        · simp only [ht, if_true]
          exact List.count_pos_iff.mpr (ht ▸ List.getElem_mem hn)
        · simp [ht]
      by_cases hax : a = x <;> by_cases hcx : (x == c) = true <;>
        simp [hax, hcx] <;> omega

/-- Overwriting position `i` by the entry at `j` and position `j` by a new
value permutes the same multiset as overwriting only position `i`. -/
theorem set_set_swap_perm {β : Type} [DecidableEq β] (l : List β) {i j : Nat}
    (hij : i ≠ j) (hi : i < l.length) (hj : j < l.length) (x : β) :
    List.Perm ((l.set i l[j]).set j x) (l.set i x) := by
  apply List.perm_iff_count.mpr
  intro y
  have hj2 : j < (l.set i l[j]).length := by simpa using hj
  rw [count_set (l.set i l[j]) j x y hj2,
    count_set l i l[j] y hi, count_set l i x y hi]
  have hgs : (l.set i l[j])[j] = l[j] := List.getElem_set_ne hij _
  rw [hgs]
  have hcx : (if l[i] = y then 1 else 0) ≤ l.count y := by
    by_cases hg : l[i] = y
    · simp only [hg, if_true]
      exact List.count_pos_iff.mpr (hg ▸ List.getElem_mem hi)
    · simp [hg]
  have hcj : (if l[j] = y then 1 else 0) ≤ l.count y := by
    by_cases hg : l[j] = y
    · simp only [hg, if_true]
      exact List.count_pos_iff.mpr (hg ▸ List.getElem_mem hj)
    · simp [hg]
  by_cases h1 : l[j] = y <;> by_cases h2 : x = y <;>
    by_cases h3 : l[i] = y <;> first | (simp_all; omega) | simp_all | omega

end Heapq

end RTSim

namespace RTSim
namespace Heapq

theorem heapAt_eq_toList {α : Type} [Inhabited α] (h : Array α) (i : Nat)
    (hi : i < h.size) (hi2 : i < h.toList.length) : heapAt h i = h.toList[i] := by
  unfold heapAt Array.getD
  rw [dif_pos hi]
  rfl

theorem size_setD2 {α : Type} (h : Array α) (i : Nat) (v : α) :
    (h.setD i v).size = h.size := Array.size_setD h i v

theorem siftdownFuel_succ {α : Type} [Inhabited α] (lt : α → α → Bool)
    (newitem : α) (s fuel : Nat) (h : Array α) (pos : Nat) :
    siftdownFuel lt newitem s (fuel + 1) h pos =
      (if s < pos then
        (if lt newitem (h.getD (parentIdx pos) newitem) then
          siftdownFuel lt newitem s fuel
            (h.setD pos (h.getD (parentIdx pos) newitem)) (parentIdx pos)
        else h.setD pos newitem)
      else h.setD pos newitem) := rfl

theorem siftdown_place {α : Type} [Inhabited α] (m : α → Nat) (h : Array α)
    (s pos : Nat) (newitem : α) (hpos : pos < h.size)
    (hA : ∀ c, 0 < c → c < h.size → s ≤ parentIdx c → c ≠ pos →
      m (heapAt h (parentIdx c)) ≤ m (heapAt h c))
    (hC : ∀ c, 0 < c → c < h.size → parentIdx c = pos →
      m newitem ≤ m (heapAt h c))
    (hedge : 0 < pos → s ≤ parentIdx pos →
      m (heapAt h (parentIdx pos)) ≤ m newitem) :
    HeapFrom m (h.setD pos newitem) s := by
  intro c hc0 hcs hscope
  rw [size_setD2] at hcs
  have hpc : parentIdx c < c := parentIdx_lt hc0
  by_cases hcp : c = pos
  · subst hcp
    rw [heapAt_setD_self h c newitem hcs,
      heapAt_setD_ne h newitem (by omega : c ≠ parentIdx c)]
    exact hedge hc0 hscope
  · rw [heapAt_setD_ne h newitem (fun hh => hcp hh.symm)]
    by_cases hpp : parentIdx c = pos
    · rw [hpp, heapAt_setD_self h pos newitem hpos]
      exact hC c hc0 hcs hpp
    · rw [heapAt_setD_ne h newitem (fun hh => hpp hh.symm)]
      exact hA c hc0 hcs hscope hcp

theorem siftdownFuel_spec {α : Type} [Inhabited α] [DecidableEq α]
    (lt : α → α → Bool) (m : α → Nat)
    (hcm : ∀ a b, (lt a b = true → m a ≤ m b) ∧ (lt a b = false → m b ≤ m a))
    (newitem : α) (s : Nat) :
    ∀ (fuel : Nat) (h : Array α) (pos : Nat), pos ≤ fuel → pos < h.size →
      Anc s pos →
      (∀ c, 0 < c → c < h.size → s ≤ parentIdx c → c ≠ pos →
        m (heapAt h (parentIdx c)) ≤ m (heapAt h c)) →
      (∀ c, 0 < c → c < h.size → parentIdx c = pos → s < pos →
        m (heapAt h (parentIdx pos)) ≤ m (heapAt h c)) →
      (∀ c, 0 < c → c < h.size → parentIdx c = pos →
        m newitem ≤ m (heapAt h c)) →
      (siftdownFuel lt newitem s fuel h pos).size = h.size ∧
      HeapFrom m (siftdownFuel lt newitem s fuel h pos) s ∧
      List.Perm (siftdownFuel lt newitem s fuel h pos).toList
        (h.setD pos newitem).toList := by
  intro fuel
  induction fuel with
  | zero =>
    intro h pos hf hpos hanc hA hB hC
    have hp0 : pos = 0 := by omega
    subst hp0
    refine ⟨size_setD2 h 0 newitem, ?_, List.Perm.refl _⟩
    exact siftdown_place m h s 0 newitem hpos hA hC (by omega)
  | succ fuel ih =>
    intro h pos hf hpos hanc hA hB hC
    rw [siftdownFuel_succ]
    by_cases hsp : s < pos
    · rw [if_pos hsp]
      have hpos0 : 0 < pos := by omega
      have hppos : parentIdx pos < pos := parentIdx_lt hpos0
      have hpsz : parentIdx pos < h.size := by omega
      rw [getD_eq_heapAt h (parentIdx pos) newitem hpsz]
      by_cases hlt : lt newitem (heapAt h (parentIdx pos)) = true
      · rw [if_pos hlt]
        have hm := (hcm newitem (heapAt h (parentIdx pos))).1 hlt
        have hanc2 : Anc s (parentIdx pos) := anc_parent hanc hsp
        have hsle : s ≤ parentIdx pos := anc_le hanc2
        set pv := heapAt h (parentIdx pos) with hpv
        set h2 := h.setD pos pv with hh2
        have hsz2 : h2.size = h.size := size_setD2 h pos pv
        have hat2 : ∀ x, x ≠ pos → heapAt h2 x = heapAt h x := fun x hx =>
          heapAt_setD_ne h pv (fun hh => hx hh.symm)
        have hatp : heapAt h2 pos = pv := heapAt_setD_self h pos pv hpos
        have hA2 : ∀ c, 0 < c → c < h2.size → s ≤ parentIdx c →
            c ≠ parentIdx pos → m (heapAt h2 (parentIdx c)) ≤ m (heapAt h2 c) := by
          intro c hc0 hcs hscope hcp
          rw [hsz2] at hcs
          by_cases hcpos : c = pos
          · subst hcpos
            rw [hatp, hat2 (parentIdx c) (by omega)]
          · rw [hat2 c hcpos]
            by_cases hpcp : parentIdx c = pos
            · rw [hpcp, hatp]
              exact hB c hc0 hcs hpcp hsp
            · rw [hat2 (parentIdx c) hpcp]
              exact hA c hc0 hcs hscope hcpos
        have hB2 : ∀ c, 0 < c → c < h2.size → parentIdx c = parentIdx pos →
            s < parentIdx pos →
            m (heapAt h2 (parentIdx (parentIdx pos))) ≤ m (heapAt h2 c) := by
          intro c hc0 hcs hpc hsp2
          rw [hsz2] at hcs
          have hp0 : 0 < parentIdx pos := by omega
          have hppp : parentIdx (parentIdx pos) < parentIdx pos :=
            parentIdx_lt hp0
          have hsle2 : s ≤ parentIdx (parentIdx pos) :=
            anc_le (anc_parent hanc2 hsp2)
          have hstep : m (heapAt h (parentIdx (parentIdx pos))) ≤ m pv := by
            rw [hpv]
            exact hA (parentIdx pos) hp0 hpsz hsle2 (by omega)
          rw [hat2 (parentIdx (parentIdx pos)) (by omega)]
          by_cases hcpos : c = pos
          · subst hcpos
            rw [hatp]
            exact hstep
          · rw [hat2 c hcpos]
            have hchain : m (heapAt h (parentIdx c)) ≤ m (heapAt h c) :=
              hA c hc0 hcs (by omega) hcpos
            rw [hpc] at hchain
            calc m (heapAt h (parentIdx (parentIdx pos)))
                ≤ m (heapAt h (parentIdx pos)) := by rw [← hpv]; exact hstep
              _ ≤ m (heapAt h c) := hchain
        have hC2 : ∀ c, 0 < c → c < h2.size → parentIdx c = parentIdx pos →
            m newitem ≤ m (heapAt h2 c) := by
          intro c hc0 hcs hpc
          rw [hsz2] at hcs
          by_cases hcpos : c = pos
          · subst hcpos
            rw [hatp]
            exact hm
          · rw [hat2 c hcpos]
            have hchain : m (heapAt h (parentIdx c)) ≤ m (heapAt h c) :=
              hA c hc0 hcs (by omega) hcpos
            rw [hpc] at hchain
            exact le_trans hm hchain
        obtain ⟨hsz3, hheap3, hperm3⟩ := ih h2 (parentIdx pos) (by omega)
          (by omega) hanc2 hA2 hB2 hC2
        refine ⟨by rw [hsz3, hsz2], hheap3, ?_⟩
        refine hperm3.trans ?_
        rw [hh2, toList_setD, toList_setD, toList_setD]
        have hlen : pos < h.toList.length := by
          rw [Array.length_toList]; exact hpos
        have hlen2 : parentIdx pos < h.toList.length := by
          rw [Array.length_toList]; exact hpsz
        have hpv2 : pv = h.toList[parentIdx pos] := by
          rw [hpv]; exact heapAt_eq_toList h (parentIdx pos) hpsz hlen2
        rw [hpv2]
        exact set_set_swap_perm h.toList (by omega) hlen hlen2 newitem
      · rw [if_neg (by simpa using hlt)]
        have hm := (hcm newitem (heapAt h (parentIdx pos))).2
          (by simpa using hlt)
        refine ⟨size_setD2 h pos newitem, ?_, List.Perm.refl _⟩
        exact siftdown_place m h s pos newitem hpos hA hC
          (fun _ _ => hm)
    · rw [if_neg hsp]
      refine ⟨size_setD2 h pos newitem, ?_, List.Perm.refl _⟩
      refine siftdown_place m h s pos newitem hpos hA hC ?_
      intro hpos0 hscope
      have := parentIdx_lt hpos0
      omega

theorem siftdownLoop_spec {α : Type} [Inhabited α] [DecidableEq α]
    (lt : α → α → Bool) (m : α → Nat)
    (hcm : ∀ a b, (lt a b = true → m a ≤ m b) ∧ (lt a b = false → m b ≤ m a))
    (newitem : α) (s : Nat) (h : Array α) (pos : Nat) (hpos : pos < h.size)
    (hanc : Anc s pos)
    (hA : ∀ c, 0 < c → c < h.size → s ≤ parentIdx c → c ≠ pos →
      m (heapAt h (parentIdx c)) ≤ m (heapAt h c))
    (hB : ∀ c, 0 < c → c < h.size → parentIdx c = pos → s < pos →
      m (heapAt h (parentIdx pos)) ≤ m (heapAt h c))
    (hC : ∀ c, 0 < c → c < h.size → parentIdx c = pos →
      m newitem ≤ m (heapAt h c)) :
    (siftdownLoop lt newitem s h pos).size = h.size ∧
    HeapFrom m (siftdownLoop lt newitem s h pos) s ∧
    List.Perm (siftdownLoop lt newitem s h pos).toList
      (h.setD pos newitem).toList :=
  siftdownFuel_spec lt m hcm newitem s pos h pos (Nat.le_refl pos) hpos hanc
    hA hB hC

end Heapq
end RTSim

namespace RTSim
namespace Heapq

theorem parentIdx_left (pos : Nat) : parentIdx (2 * pos + 1) = pos := by
  unfold parentIdx
  omega

theorem parentIdx_right (pos : Nat) : parentIdx (2 * pos + 2) = pos := by
  unfold parentIdx
  omega

theorem child_ge {c pos : Nat} (h : parentIdx c = pos) (h0 : 0 < c) :
    2 * pos + 1 ≤ c ∧ c ≤ 2 * pos + 2 := by
  unfold parentIdx at h
  omega

theorem siftupFuel_zero {α : Type} [Inhabited α] (lt : α → α → Bool)
    (newitem : α) (s endpos : Nat) (h : Array α) (pos : Nat) :
    siftupFuel lt endpos s newitem 0 h pos = siftdownLoop lt newitem s h pos := rfl

theorem siftupFuel_succ {α : Type} [Inhabited α] (lt : α → α → Bool)
    (newitem : α) (s endpos fuel : Nat) (h : Array α) (pos : Nat) :
    siftupFuel lt endpos s newitem (fuel + 1) h pos =
      (if 2 * pos + 1 < endpos then
        (if (2 * pos + 2 < endpos &&
            !(lt (h.getD (2 * pos + 1) newitem) (h.getD (2 * pos + 2) newitem))) then
          siftupFuel lt endpos s newitem fuel
            (h.setD pos (h.getD (2 * pos + 2) newitem)) (2 * pos + 2)
        else
          siftupFuel lt endpos s newitem fuel
            (h.setD pos (h.getD (2 * pos + 1) newitem)) (2 * pos + 1))
      else siftdownLoop lt newitem s h pos) := rfl

theorem siftupFuel_spec {α : Type} [Inhabited α] [DecidableEq α]
    (lt : α → α → Bool) (m : α → Nat)
    (hcm : ∀ a b, (lt a b = true → m a ≤ m b) ∧ (lt a b = false → m b ≤ m a))
    (newitem : α) (s endpos : Nat) :
    ∀ (fuel : Nat) (h : Array α) (pos : Nat), endpos = h.size →
      endpos ≤ fuel + pos → pos < endpos → Anc s pos →
      (∀ c, 0 < c → c < h.size → s ≤ parentIdx c → parentIdx c ≠ pos →
        m (heapAt h (parentIdx c)) ≤ m (heapAt h c)) →
      (s < pos → ∀ c, 0 < c → c < h.size → parentIdx c = pos →
        m (heapAt h (parentIdx pos)) ≤ m (heapAt h c)) →
      (siftupFuel lt endpos s newitem fuel h pos).size = h.size ∧
      HeapFrom m (siftupFuel lt endpos s newitem fuel h pos) s ∧
      List.Perm (siftupFuel lt endpos s newitem fuel h pos).toList
        (h.setD pos newitem).toList := by
  intro fuel
  induction fuel with
  | zero =>
    intro h pos hsz hfuel hlt _ _ _
    omega
  | succ fuel ih =>
    intro h pos hsz hfuel hpos hanc hb hcc
    rw [siftupFuel_succ]
    by_cases hleaf : 2 * pos + 1 < endpos
    · rw [if_pos hleaf]
      have hnochild : ∀ c, parentIdx c = pos → c < endpos → 0 < c →
          c = 2 * pos + 1 ∨ c = 2 * pos + 2 := by
        intro c hpc hce hc0
        have := child_ge hpc hc0
        omega
      have hkey : ∀ c, parentIdx c = pos → 0 < c → c < endpos →
          (∀ o, parentIdx o = pos → 0 < o → o < endpos →
            m (heapAt h c) ≤ m (heapAt h o)) →
          (siftupFuel lt endpos s newitem fuel
            (h.setD pos (heapAt h c)) c).size = h.size ∧
          HeapFrom m (siftupFuel lt endpos s newitem fuel
            (h.setD pos (heapAt h c)) c) s ∧
          List.Perm (siftupFuel lt endpos s newitem fuel
            (h.setD pos (heapAt h c)) c).toList
            (h.setD pos newitem).toList := by
        intro c hpc hc0 hce hmin
        have hcgt : pos < c := hpc ▸ parentIdx_lt hc0
        set cv := heapAt h c with hcv
        set h2 := h.setD pos cv with hh2
        have hsz2 : h2.size = h.size := size_setD2 h pos cv
        have hat2 : ∀ x, x ≠ pos → heapAt h2 x = heapAt h x := fun x hx =>
          heapAt_setD_ne h cv (fun hh => hx hh.symm)
        have hatp : heapAt h2 pos = cv :=
          heapAt_setD_self h pos cv (by omega)
        have hb2 : ∀ c₁, 0 < c₁ → c₁ < h2.size → s ≤ parentIdx c₁ →
            parentIdx c₁ ≠ c →
            m (heapAt h2 (parentIdx c₁)) ≤ m (heapAt h2 c₁) := by
          intro c₁ hc₁0 hc₁s hscope hpc₁
          rw [hsz2] at hc₁s
          have hpc₁lt : parentIdx c₁ < c₁ := parentIdx_lt hc₁0
          by_cases hc₁pos : c₁ = pos
          · subst hc₁pos
            rw [hatp, hat2 (parentIdx c₁) (by omega)]
            have hs_lt : s < c₁ := by
              have := parentIdx_lt hc₁0
              omega
            exact hcc hs_lt c hc0 (by omega) hpc
          · rw [hat2 c₁ hc₁pos]
            by_cases hpp : parentIdx c₁ = pos
            · rw [hpp, hatp]
              exact hmin c₁ hpp hc₁0 (by omega)
            · rw [hat2 (parentIdx c₁) hpp]
              exact hb c₁ hc₁0 hc₁s hscope hpp
        have hcc2 : s < c → ∀ c₂, 0 < c₂ → c₂ < h2.size → parentIdx c₂ = c →
            m (heapAt h2 (parentIdx c)) ≤ m (heapAt h2 c₂) := by
          intro hsc c₂ hc₂0 hc₂s hpc₂
          rw [hsz2] at hc₂s
          have hc₂gt : c < c₂ := hpc₂ ▸ parentIdx_lt hc₂0
          rw [hpc, hatp, hat2 c₂ (by omega), hcv]
          have hcne : heapAt h c = heapAt h (parentIdx c₂) := by rw [hpc₂]
          rw [hcne]
          exact hb c₂ hc₂0 hc₂s (by omega) (by omega)
        obtain ⟨hszr, hheapr, hpermr⟩ := ih h2 c (by omega) (by omega)
          (by omega) (anc_child hanc hpc) hb2 hcc2
        refine ⟨by rw [hszr, hsz2], hheapr, ?_⟩
        refine hpermr.trans ?_
        rw [hh2, toList_setD, toList_setD, toList_setD]
        have hlen : pos < h.toList.length := by
          rw [Array.length_toList]; omega
        have hlen2 : c < h.toList.length := by
          rw [Array.length_toList]; omega
        have hcv2 : cv = h.toList[c] := by
          rw [hcv]; exact heapAt_eq_toList h c (by omega) hlen2
        rw [hcv2]
        exact set_set_swap_perm h.toList (by omega) hlen hlen2 newitem
      by_cases hcond : (2 * pos + 2 < endpos &&
          !(lt (h.getD (2 * pos + 1) newitem) (h.getD (2 * pos + 2) newitem))) = true
      · rw [if_pos hcond]
        simp only [Bool.and_eq_true, Bool.not_eq_eq_eq_not, Bool.not_true,
          decide_eq_true_eq] at hcond
        obtain ⟨hr_lt, hltlr⟩ := hcond
        have hrw : h.getD (2 * pos + 2) newitem = heapAt h (2 * pos + 2) :=
          getD_eq_heapAt h _ newitem (by omega)
        rw [hrw]
        refine hkey (2 * pos + 2) (parentIdx_right pos) (by omega) hr_lt ?_
        intro o hpo ho0 hoe
        rcases hnochild o hpo hoe ho0 with h1 | h1
        · subst h1
          have := (hcm (heapAt h (2 * pos + 1)) (heapAt h (2 * pos + 2))).2
          rw [getD_eq_heapAt h _ newitem (by omega),
            getD_eq_heapAt h _ newitem (by omega)] at hltlr
          exact this hltlr
        · subst h1
          exact Nat.le_refl _
      · rw [if_neg hcond]
        have hrw : h.getD (2 * pos + 1) newitem = heapAt h (2 * pos + 1) :=
          getD_eq_heapAt h _ newitem (by omega)
        rw [hrw]
        refine hkey (2 * pos + 1) (parentIdx_left pos) (by omega) hleaf ?_
        intro o hpo ho0 hoe
        rcases hnochild o hpo hoe ho0 with h1 | h1
        · subst h1
          exact Nat.le_refl _
        · subst h1
          simp only [Bool.and_eq_true, Bool.not_eq_eq_eq_not, Bool.not_true,
            not_and, decide_eq_true_eq] at hcond
          by_cases hre : 2 * pos + 2 < endpos
          · have hltlr := hcond hre
            have : lt (h.getD (2 * pos + 1) newitem)
                (h.getD (2 * pos + 2) newitem) = true := by
              rcases Bool.eq_false_or_eq_true
                (lt (h.getD (2 * pos + 1) newitem) (h.getD (2 * pos + 2) newitem))
                with hx | hx
              · exact hx
              · exact absurd hx hltlr
            rw [getD_eq_heapAt h _ newitem (by omega),
              getD_eq_heapAt h _ newitem (by omega)] at this
            exact (hcm _ _).1 this
          · omega
    · rw [if_neg hleaf]
      have hnochild : ∀ c, 0 < c → c < h.size → parentIdx c ≠ pos := by
        intro c hc0 hcs hpc
        have := child_ge hpc hc0
        omega
      refine siftdownLoop_spec lt m hcm newitem s h pos (by omega) hanc ?_ ?_ ?_
      · intro c hc0 hcs hscope hcp
        exact hb c hc0 hcs hscope (hnochild c hc0 hcs)
      · intro c hc0 hcs hpc _
        exact absurd hpc (hnochild c hc0 hcs)
      · intro c hc0 hcs hpc
        exact absurd hpc (hnochild c hc0 hcs)

theorem siftupLoop_spec {α : Type} [Inhabited α] [DecidableEq α]
    (lt : α → α → Bool) (m : α → Nat)
    (hcm : ∀ a b, (lt a b = true → m a ≤ m b) ∧ (lt a b = false → m b ≤ m a))
    (newitem : α) (s : Nat) (h : Array α) (pos : Nat) (hsz : h.size ≤ h.size)
    (hpos : pos < h.size) (hanc : Anc s pos)
    (hb : ∀ c, 0 < c → c < h.size → s ≤ parentIdx c → parentIdx c ≠ pos →
      m (heapAt h (parentIdx c)) ≤ m (heapAt h c))
    (hcc : s < pos → ∀ c, 0 < c → c < h.size → parentIdx c = pos →
      m (heapAt h (parentIdx pos)) ≤ m (heapAt h c)) :
    (siftupLoop lt h.size s newitem h pos).size = h.size ∧
    HeapFrom m (siftupLoop lt h.size s newitem h pos) s ∧
    List.Perm (siftupLoop lt h.size s newitem h pos).toList
      (h.setD pos newitem).toList :=
  siftupFuel_spec lt m hcm newitem s h.size h.size h pos rfl (by omega) hpos
    hanc hb hcc

end Heapq
end RTSim

namespace RTSim
namespace Heapq

theorem set_self {β : Type} : ∀ (l : List β) (i : Nat) (hi : i < l.length),
    l.set i l[i] = l := by
  intro l
  induction l with
  | nil =>
    intro i hi
    simp at hi
  | cons a t ih =>
    intro i hi
    cases i with
    | zero => simp
    | succ j =>
      simp only [List.set_cons_succ, List.getElem_cons_succ]
      rw [ih j (by simpa using hi)]

theorem heapAt_push_lt {α : Type} [Inhabited α] (heap : Array α) (x : α)
    (i : Nat) (hi : i < heap.size) :
    heapAt (heap.push x) i = heapAt heap i := by
  have h1 : i < (heap.push x).size := by
    rw [Array.size_push]
    omega
  have h2 : i < (heap.push x).toList.length := by
    rw [Array.length_toList]
    exact h1
  have h3 : i < heap.toList.length := by
    rw [Array.length_toList]
    exact hi
  rw [heapAt_eq_toList _ i h1 h2, heapAt_eq_toList heap i hi h3]
  simp only [Array.push_toList]
  exact List.getElem_append_left h3

theorem heapAt_push_self {α : Type} [Inhabited α] (heap : Array α) (x : α) :
    heapAt (heap.push x) heap.size = x := by
  have h1 : heap.size < (heap.push x).size := by
    rw [Array.size_push]
    omega
  have h2 : heap.size < (heap.push x).toList.length := by
    rw [Array.length_toList]
    exact h1
  rw [heapAt_eq_toList _ _ h1 h2]
  simp only [Array.push_toList]
  exact List.getElem_concat_length _ _ _ Array.length_toList.symm _

theorem heapAt_pop {α : Type} [Inhabited α] (heap : Array α) (i : Nat)
    (hi : i < heap.pop.size) :
    heapAt heap.pop i = heapAt heap i := by
  have hs : heap.pop.size = heap.size - 1 := Array.size_pop heap
  have h1 : i < heap.size := by omega
  have h2 : i < heap.pop.toList.length := by
    rw [Array.length_toList]
    exact hi
  have h3 : i < heap.toList.length := by
    rw [Array.length_toList]
    exact h1
  rw [heapAt_eq_toList _ i hi h2, heapAt_eq_toList heap i h1 h3]
  simp only [Array.toList_pop]
  exact List.getElem_dropLast _ _ _

theorem heap_root_min {α : Type} [Inhabited α] (m : α → Nat) (h : Array α)
    (hh : IsHeap m h) : ∀ i, i < h.size → m (heapAt h 0) ≤ m (heapAt h i) := by
  intro i
  induction i using Nat.strong_induction_on with
  | _ i ih =>
    intro hi
    rcases Nat.eq_zero_or_pos i with h0 | h0
    · rw [h0]
    · have hp := parentIdx_lt h0
      exact Nat.le_trans (ih (parentIdx i) hp (by omega))
        (hh i h0 hi (Nat.zero_le _))

theorem heappush_spec {α : Type} [Inhabited α] [DecidableEq α]
    (lt : α → α → Bool) (m : α → Nat)
    (hcm : ∀ a b, (lt a b = true → m a ≤ m b) ∧ (lt a b = false → m b ≤ m a))
    (heap : Array α) (item : α) (hheap : IsHeap m heap) :
    (heappush lt heap item).size = heap.size + 1 ∧
    IsHeap m (heappush lt heap item) ∧
    List.Perm (heappush lt heap item).toList (item :: heap.toList) := by
  have hkey : heappush lt heap item =
      siftdownLoop lt item 0 (heap.push item) heap.size := by
    unfold heappush
    simp only [Array.size_push, Nat.add_sub_cancel]
  rw [hkey]
  have hpos : heap.size < (heap.push item).size := by
    rw [Array.size_push]
    omega
  obtain ⟨hsz, hheap2, hperm⟩ := siftdownLoop_spec lt m hcm item 0
    (heap.push item) heap.size hpos (anc_zero heap.size)
    (by
      intro c hc0 hcs hscope hcne
      rw [Array.size_push] at hcs
      have hclt : c < heap.size := by omega
      have hplt : parentIdx c < heap.size := by
        have := parentIdx_lt hc0
        omega
      rw [heapAt_push_lt heap item c hclt, heapAt_push_lt heap item _ hplt]
      exact hheap c hc0 hclt hscope)
    (by
      intro c hc0 hcs hpc _
      rw [Array.size_push] at hcs
      have := child_ge hpc hc0
      omega)
    (by
      intro c hc0 hcs hpc
      rw [Array.size_push] at hcs
      have := child_ge hpc hc0
      exact absurd hcs (by omega))
  refine ⟨by rw [hsz, Array.size_push], hheap2, ?_⟩
  refine hperm.trans ?_
  rw [toList_setD]
  have hlen : heap.size < (heap.push item).toList.length := by
    rw [Array.length_toList]
    exact hpos
  have hgl : (heap.push item).toList[heap.size] = item := by
    simp only [Array.push_toList]
    exact List.getElem_concat_length _ _ _ Array.length_toList.symm _
  have hset := set_self (heap.push item).toList heap.size hlen
  simp only [hgl] at hset
  rw [hset, Array.push_toList]
  exact List.perm_append_singleton item heap.toList

theorem heappop_spec {α : Type} [Inhabited α] [DecidableEq α]
    (lt : α → α → Bool) (m : α → Nat)
    (hcm : ∀ a b, (lt a b = true → m a ≤ m b) ∧ (lt a b = false → m b ≤ m a))
    (heap : Array α) (hne : heap.size ≠ 0) (hheap : IsHeap m heap) :
    ∃ rest2 : Array α, heappop lt heap = some (heapAt heap 0, rest2) ∧
      rest2.size = heap.size - 1 ∧ IsHeap m rest2 ∧
      List.Perm heap.toList (heapAt heap 0 :: rest2.toList) := by
  have hlen0 : heap.toList.length = heap.size := Array.length_toList
  have hlt : heap.toList ≠ [] := by
    intro hnil
    rw [hnil] at hlen0
    simp at hlen0
    omega
  have hlast : heap.getD (heap.size - 1) default = heap.toList.getLast hlt := by
    rw [getD_eq_heapAt heap _ default (by omega)]
    rw [heapAt_eq_toList heap _ (by omega) (by omega)]
    rw [List.getLast_eq_getElem heap.toList hlt]
  by_cases h1 : heap.pop.size = 0
  · have hs1 : heap.size = 1 := by
      have := Array.size_pop heap
      omega
    refine ⟨heap.pop, ?_, Array.size_pop heap, ?_, ?_⟩
    · simp only [heappop]
      rw [if_neg hne, if_pos h1]
      have hg : heap.getD (heap.size - 1) default = heapAt heap 0 := by
        unfold heapAt
        rw [hs1]
      rw [hg]
    · intro c hc0 hcs _
      omega
    · have hdl : heap.toList.dropLast = [] := by
        have hl : heap.toList.dropLast.length = 0 := by
          rw [List.length_dropLast]
          omega
        exact List.length_eq_zero.mp hl
      have h01 : heap.toList.getLast hlt = heapAt heap 0 := by
        rw [List.getLast_eq_getElem]
        rw [← heapAt_eq_toList heap (heap.toList.length - 1) (by omega) (by omega)]
        have he : heap.toList.length - 1 = 0 := by omega
        rw [he]
      have hout : heap.toList = [heapAt heap 0] := by
        have h6 := List.dropLast_append_getLast hlt
        rw [hdl, h01] at h6
        exact h6.symm
      rw [hout, Array.toList_pop, hdl]
    -- nil dropLast case done
  · have hs2 : 2 ≤ heap.size := by
      have := Array.size_pop heap
      omega
    have hrs : heap.pop.size = heap.size - 1 := Array.size_pop heap
    have hroot : heap.pop.getD 0 default = heapAt heap 0 := by
      rw [getD_eq_heapAt _ 0 default (by omega)]
      exact heapAt_pop heap 0 (by omega)
    obtain ⟨hsz, hheap2, hperm⟩ := siftupLoop_spec lt m hcm
      (heap.getD (heap.size - 1) default) 0 heap.pop 0 (Nat.le_refl _)
      (by omega) (anc_refl 0)
      (by
        intro c hc0 hcs hscope hpne
        have hplt : parentIdx c < c := parentIdx_lt hc0
        rw [heapAt_pop heap c hcs, heapAt_pop heap _ (by omega)]
        exact hheap c hc0 (by omega) (Nat.zero_le _))
      (by
        intro h0
        exact absurd h0 (Nat.lt_irrefl 0))
    refine ⟨siftupLoop lt heap.pop.size 0 (heap.getD (heap.size - 1) default)
      heap.pop 0, ?_, by rw [hsz, hrs], hheap2, ?_⟩
    · simp only [heappop]
      rw [if_neg hne, if_neg h1, hroot]
    · have hplen : heap.pop.toList.length = heap.size - 1 := by
        rw [Array.length_toList, hrs]
      have hpl0 : 0 < heap.pop.toList.length := by omega
      have hph : heap.pop.toList[0] = heapAt heap 0 := by
        rw [← heapAt_eq_toList heap.pop 0 (by omega) hpl0]
        exact heapAt_pop heap 0 (by omega)
      obtain ⟨a, t, hc⟩ := List.exists_cons_of_ne_nil
        (l := heap.pop.toList) (by
          intro hnil
          rw [hnil] at hplen
          simp at hplen
          omega)
      have ha : a = heapAt heap 0 := by
        rw [← hph]
        simp only [hc]
        rfl
      rw [ha] at hc
      have hsetl : (heap.pop.setD 0 (heap.getD (heap.size - 1) default)).toList
          = heap.getD (heap.size - 1) default :: t := by
        rw [toList_setD, hc]
        rfl
      have hexp : heap.toList =
          heapAt heap 0 :: (t ++ [heap.getD (heap.size - 1) default]) := by
        have h5 : heap.toList.dropLast = heapAt heap 0 :: t := by
          rw [← Array.toList_pop, hc]
        have h6 := List.dropLast_append_getLast hlt
        rw [h5] at h6
        rw [← h6, ← hlast]
        rfl
      refine List.Perm.trans ?_ (List.Perm.cons _ hperm.symm)
      rw [hsetl, hexp]
      exact List.Perm.cons _ (List.perm_append_singleton _ _)

theorem heapifyLoop_spec {α : Type} [Inhabited α] [DecidableEq α]
    (lt : α → α → Bool) (m : α → Nat)
    (hcm : ∀ a b, (lt a b = true → m a ≤ m b) ∧ (lt a b = false → m b ≤ m a)) :
    ∀ (k : Nat) (heap : Array α), 2 * k ≤ heap.size → HeapFrom m heap k →
      (heapifyLoop lt heap k).size = heap.size ∧
      HeapFrom m (heapifyLoop lt heap k) 0 ∧
      List.Perm (heapifyLoop lt heap k).toList heap.toList := by
  intro k
  induction k with
  | zero =>
    intro heap _ hh
    exact ⟨rfl, hh, List.Perm.refl _⟩
  | succ i ih =>
    intro heap hk hh
    have hipos : i < heap.size := by omega
    obtain ⟨hsz, hhf, hperm⟩ := siftupLoop_spec lt m hcm (heap.getD i default) i
      heap i (Nat.le_refl _) hipos (anc_refl i)
      (by
        intro c hc0 hcs hscope hpne
        exact hh c hc0 hcs (by omega))
      (by
        intro h0
        exact absurd h0 (Nat.lt_irrefl i))
    have hkey : heapifyLoop lt heap (i + 1) =
        heapifyLoop lt (siftupLoop lt heap.size i (heap.getD i default) heap i)
          i := rfl
    rw [hkey]
    have hsame : (heap.setD i (heap.getD i default)).toList = heap.toList := by
      rw [toList_setD]
      have hl : i < heap.toList.length := by
        rw [Array.length_toList]
        omega
      have hgl : heap.toList[i] = heap.getD i default := by
        rw [← heapAt_eq_toList heap i hipos hl]
        rfl
      have hset := set_self heap.toList i hl
      simp only [hgl] at hset
      exact hset
    rw [hsame] at hperm
    obtain ⟨hsz2, hhf2, hperm2⟩ :=
      ih (siftupLoop lt heap.size i (heap.getD i default) heap i)
        (by rw [hsz]; omega) hhf
    exact ⟨by rw [hsz2, hsz], hhf2, hperm2.trans hperm⟩

theorem heapify_spec {α : Type} [Inhabited α] [DecidableEq α]
    (lt : α → α → Bool) (m : α → Nat)
    (hcm : ∀ a b, (lt a b = true → m a ≤ m b) ∧ (lt a b = false → m b ≤ m a))
    (heap : Array α) :
    (heapify lt heap).size = heap.size ∧ IsHeap m (heapify lt heap) ∧
    List.Perm (heapify lt heap).toList heap.toList := by
  have hvac : HeapFrom m heap (heap.size / 2) := by
    intro c hc0 hcs hscope
    have := child_ge (rfl : parentIdx c = parentIdx c) hc0
    omega
  exact heapifyLoop_spec lt m hcm (heap.size / 2) heap (by omega) hvac

end Heapq
end RTSim

namespace RTSim

theorem strLt_cr :
    strLt (String.toList "job_completion") (String.toList "job_release") = true := by
  decide

theorem strLt_rc :
    strLt (String.toList "job_release") (String.toList "job_completion") = false := by
  decide

theorem strLt_rr :
    strLt (String.toList "job_release") (String.toList "job_release") = false := by
  decide

theorem strLt_cc :
    strLt (String.toList "job_completion") (String.toList "job_completion") = false := by
  decide

theorem evKey_compat (a b : Event) :
    (Event.lt a b = true → evKey a ≤ evKey b) ∧
    (Event.lt a b = false → evKey b ≤ evKey a) := by
  obtain ⟨ta, ea, ka, ja⟩ := a
  obtain ⟨tb, eb, kb, jb⟩ := b
  by_cases hne : ta = tb
  · subst hne
    cases ea <;> cases eb <;>
      simp [Event.lt, evKey, EventType.value] <;> decide
  · cases ea <;> cases eb <;>
      simp [Event.lt, evKey, EventType.value, hne] <;> (try constructor) <;>
      intro h <;> omega

theorem evKey_time_le {a b : Event} (h : evKey a ≤ evKey b) :
    a.time ≤ b.time := by
  unfold evKey at h
  by_cases h1 : a.event_type = EventType.job_release <;>
    by_cases h2 : b.event_type = EventType.job_release <;>
    simp [h1, h2] at h <;> omega

theorem evKey_release_lt {a b : Event}
    (ha : a.event_type = EventType.job_release)
    (hb : b.event_type = EventType.job_completion)
    (h : evKey a ≤ evKey b) : a.time < b.time := by
  unfold evKey at h
  rw [ha, hb] at h
  simp at h
  omega

theorem get?_zero {α : Type} [Inhabited α] (h : Array α) (h0 : 0 < h.size) :
    h.get? 0 = some (Heapq.heapAt h 0) := by
  unfold Array.get? Heapq.heapAt Array.getD
  rw [dif_pos h0, dif_pos h0]
  rfl

theorem root_min_mem {α : Type} [Inhabited α] (m : α → Nat) (h : Array α)
    (hh : Heapq.IsHeap m h) :
    ∀ e ∈ h.toList, m (Heapq.heapAt h 0) ≤ m e := by
  intro e he
  obtain ⟨i, hi, hie⟩ := List.mem_iff_getElem.mp he
  rw [← hie,
    ← Heapq.heapAt_eq_toList h i (by rw [← Array.length_toList]; exact hi) hi]
  exact Heapq.heap_root_min m h hh i (by rw [← Array.length_toList]; exact hi)

theorem add_job_queue (v : SchedulerVariant) (s : SchedState) (j : Job) :
    (Scheduler.add_job v s j).ready_queue =
      s.ready_queue ++ [(get_priority v j, s.counter, j)] := rfl

theorem add_job_qp {v : SchedulerVariant} {s : SchedState} {j : Job}
    (hq : queue_pos s) (hj : 0 < j.remaining) :
    queue_pos (Scheduler.add_job v s j) := by
  intro e he
  rw [add_job_queue] at he
  rcases List.mem_append.mp he with h | h
  · exact hq e h
  · simp only [List.mem_singleton] at h
    rw [h]
    exact hj

theorem has_jobs_iff (s : SchedState) :
    Scheduler.has_jobs s = true ↔ s.ready_queue ≠ [] := by
  unfold Scheduler.has_jobs
  simp [List.isEmpty_iff]

theorem get_next_job_spec (s : SchedState) :
    (s.ready_queue = [] ∧ Scheduler.get_next_job s = (none, s)) ∨
    (∃ e, e ∈ s.ready_queue ∧
      Scheduler.get_next_job s =
        (some e.2.2, { s with ready_queue := s.ready_queue.erase e }) ∧
      (s.ready_queue.erase e).length + 1 = s.ready_queue.length) := by
  by_cases hq : s.ready_queue = []
  · left
    refine ⟨hq, ?_⟩
    unfold Scheduler.get_next_job
    rw [hq]
    rfl
  · right
    obtain ⟨x, xs, hxq⟩ := List.exists_cons_of_ne_nil hq
    have hm : ∃ e, Scheduler.qMin s.ready_queue = some e := by
      rw [hxq]
      exact ⟨_, rfl⟩
    obtain ⟨e, he⟩ := hm
    have hmem : e ∈ s.ready_queue := qMin_mem he
    refine ⟨e, hmem, ?_, ?_⟩
    · unfold Scheduler.get_next_job
      rw [he]
    · have hl := List.length_erase_of_mem hmem
      have hpos : 0 < s.ready_queue.length := List.length_pos.mpr hq
      omega

theorem erase_qp {s : SchedState} {e : Nat × Nat × Job} (hq : queue_pos s) :
    queue_pos { s with ready_queue := s.ready_queue.erase e } := by
  intro x hx
  exact hq x (List.mem_of_mem_erase hx)

theorem ev_backfill_sched (last cur : Nat) (st : EngineState) (c : Option Job) :
    (ev_backfill last cur st c).1.sched = st.sched := by
  unfold ev_backfill
  cases c <;> by_cases h : last < cur <;> simp [h]

theorem ev_backfill_snd (last cur : Nat) (st : EngineState) (c : Option Job)
    (hle : last ≤ cur) :
    (ev_backfill last cur st c).2 =
      c.map (fun j => { j with
        remaining := j.remaining - ((cur : Int) - (last : Int)) }) := by
  unfold ev_backfill
  cases c with
  | none => by_cases h : last < cur <;> simp [h]
  | some j =>
    by_cases h : last < cur
    · simp [h]
    · have hcl : cur = last := by omega
      subst hcl
      simp [h]

theorem handle_job_release_eq (v : SchedulerVariant) (horizon : Nat)
    (task : Task) (st : EngineState) (eq : Array Event) :
    handle_job_release v horizon task st eq =
      ({ st with job_counter := st.job_counter + 1,
                 sched := Scheduler.add_job v st.sched
                   ⟨task, st.current_time, (task.wcet : Int),
                    st.current_time + task.deadline, st.job_counter⟩ },
       if st.current_time + task.period < horizon then
         Heapq.heappush Event.lt eq
           ⟨st.current_time + task.period, .job_release, some task, none⟩
       else eq) := rfl

theorem chainLen_step {horizon t p : Nat} (hp : 1 ≤ p) (ht : t < horizon) :
    chainLen horizon t p = chainLen horizon (t + p) p + 1 := by
  unfold chainLen
  have e1 : horizon - t + p - 1 = (horizon - t - 1) + p := by omega
  rw [e1, Nat.add_div_right _ hp]
  by_cases hc : t + p ≤ horizon
  · have e2 : horizon - (t + p) + p - 1 = horizon - t - 1 := by omega
    rw [e2]
  · have e2 : horizon - (t + p) + p - 1 = p - 1 := by omega
    rw [e2]
    have d1 : (p - 1) / p = 0 := Nat.div_eq_of_lt (by omega)
    have d2 : (horizon - t - 1) / p = 0 := Nat.div_eq_of_lt (by omega)
    rw [d1, d2]

theorem chainLen_le {horizon t p : Nat} (hp : 1 ≤ p) :
    chainLen horizon t p ≤ horizon := by
  unfold chainLen
  have hm : horizon ≤ p * horizon := Nat.le_mul_of_pos_left horizon hp
  calc (horizon - t + p - 1) / p ≤ (p * horizon + (p - 1)) / p :=
        Nat.div_le_div_right (by omega)
    _ = horizon + (p - 1) / p := Nat.mul_add_div (by omega) _ _
    _ = horizon := by
        rw [Nat.div_eq_of_lt (by omega)]
        omega

theorem sum_map_perm {β : Type} {l₁ l₂ : List β} (h : List.Perm l₁ l₂)
    (f : β → Nat) : (l₁.map f).sum = (l₂.map f).sum := (h.map f).sum_eq

theorem filter_completion_spec (jid : Nat) (f : Event → Nat) :
    ∀ l : List Event,
      (∀ e ∈ l, e.event_type = EventType.job_completion → e.jobId = some jid) →
      (∀ e ∈ l, e.event_type = EventType.job_completion → f e = 1) →
      ((l.filter (fun e =>
          !(e.event_type == EventType.job_completion && e.jobId == some jid))).map
            f).sum
          + l.countP (fun e => e.event_type == EventType.job_completion)
        = (l.map f).sum ∧
      (l.filter (fun e =>
          !(e.event_type == EventType.job_completion &&
            e.jobId == some jid))).countP
          (fun e => e.event_type == EventType.job_completion) = 0 := by
  intro l
  induction l with
  | nil =>
    intro _ _
    exact ⟨rfl, rfl⟩
  | cons e t ih =>
    intro hid hone
    obtain ⟨ihs, ihc⟩ := ih (fun x hx => hid x (List.mem_cons_of_mem e hx))
      (fun x hx => hone x (List.mem_cons_of_mem e hx))
    by_cases hc : e.event_type = EventType.job_completion
    · have hj : e.jobId = some jid := hid e (List.mem_cons_self e t) hc
      have hf : f e = 1 := hone e (List.mem_cons_self e t) hc
      simp [List.filter_cons, List.countP_cons, hc, hj, hf] at ihs ihc ⊢
      constructor
      · omega
      · exact ihc
    · simp [List.filter_cons, List.countP_cons, hc] at ihs ihc ⊢
      constructor
      · omega
      · exact ihc

theorem mem_filter_events {l : List Event} {p : Event → Bool} {e : Event}
    (h : e ∈ l.filter p) : e ∈ l := (List.mem_filter.mp h).1

end RTSim

namespace RTSim

theorem complete_job_sched (st : EngineState) (j : Job) :
    (complete_job st j).sched = st.sched := by
  unfold complete_job
  by_cases h : (0:Int) <
      max 0 ((st.current_time : Int) - (j.absolute_deadline : Int)) <;>
    simp [h]

theorem schedule_completion_eq (j : Job) (eq : Array Event) (t : Nat) :
    schedule_completion j eq t =
      Heapq.heappush Event.lt eq
        ⟨t + j.remaining.toNat, .job_completion, none, some j.job_id⟩ := rfl

theorem remove_completion_events_eq (jid : Nat) (eq : Array Event) :
    remove_completion_events jid eq =
      Heapq.heapify Event.lt (eq.filter (fun e =>
        !(e.event_type == EventType.job_completion &&
          e.jobId == some jid))) := rfl

theorem heappush_ev (eq : Array Event) (item : Event)
    (hh : Heapq.IsHeap evKey eq) :
    Heapq.IsHeap evKey (Heapq.heappush Event.lt eq item) ∧
    List.Perm (Heapq.heappush Event.lt eq item).toList (item :: eq.toList) := by
  obtain ⟨_, h2, h3⟩ :=
    Heapq.heappush_spec Event.lt evKey evKey_compat eq item hh
  exact ⟨h2, h3⟩

theorem remove_completion_spec (jid : Nat) (eq : Array Event) :
    Heapq.IsHeap evKey (remove_completion_events jid eq) ∧
    List.Perm (remove_completion_events jid eq).toList
      (eq.toList.filter (fun e =>
        !(e.event_type == EventType.job_completion &&
          e.jobId == some jid))) := by
  rw [remove_completion_events_eq]
  obtain ⟨_, h2, h3⟩ := Heapq.heapify_spec Event.lt evKey evKey_compat
    (eq.filter (fun e => !(e.event_type == EventType.job_completion &&
      e.jobId == some jid)))
  refine ⟨h2, ?_⟩
  rw [Array.toList_filter] at h3
  exact h3

theorem fresh_completion_inv (tasks : List Task) (t : Nat)
    (ST : EngineState) (EQ : Array Event) (nj : Job)
    (hq : queue_pos ST.sched)
    (hheap : Heapq.IsHeap evKey EQ)
    (hTq : ∀ e ∈ EQ.toList, t ≤ e.time)
    (hRq : ∀ e ∈ EQ.toList, e.event_type = EventType.job_release →
      ∃ tk, tk ∈ tasks ∧ e.task = some tk)
    (hnoc : EQ.toList.countP
      (fun e => e.event_type == EventType.job_completion) = 0)
    (hnj : 0 < nj.remaining) :
    EvInv tasks ⟨ST, schedule_completion nj EQ t, some nj, t⟩ := by
  rw [schedule_completion_eq]
  obtain ⟨hph, hpperm⟩ := heappush_ev EQ
    ⟨t + nj.remaining.toNat, .job_completion, none, some nj.job_id⟩ hheap
  have hmem : ∀ e, e ∈ (Heapq.heappush Event.lt EQ
      ⟨t + nj.remaining.toNat, .job_completion, none, some nj.job_id⟩).toList →
      e = ⟨t + nj.remaining.toNat, .job_completion, none, some nj.job_id⟩ ∨
        e ∈ EQ.toList := by
    intro e he
    have := hpperm.mem_iff.mp he
    simpa using this
  have hnotc : ∀ e ∈ EQ.toList, e.event_type ≠ EventType.job_completion := by
    intro e he hc
    have := List.countP_eq_zero.mp hnoc e he
    simp [hc] at this
  refine ⟨hph, ?_, hq, ?_, ?_, ?_⟩
  · intro e he
    rcases hmem e he with h | h
    · rw [h]
      simp
    · exact hTq e h
  · intro e he hrel
    rcases hmem e he with h | h
    · rw [h] at hrel
      simp at hrel
    · exact hRq e h hrel
  · intro e he hcomp
    rcases hmem e he with h | h
    · exact ⟨nj, rfl, by rw [h]⟩
    · exact absurd hcomp (hnotc e h)
  · intro j hj
    injection hj with hj
    subst hj
    refine ⟨hnj, ?_, ?_⟩
    · rw [hpperm.countP_eq, List.countP_cons, hnoc]
      simp
    · intro e he hcomp
      rcases hmem e he with h | h
      · rw [h]
        show ((t + nj.remaining.toNat : Nat) : Int) = (t : Int) + nj.remaining
        push_cast
        rw [Int.toNat_of_nonneg (by omega)]
      · exact absurd hcomp (hnotc e h)

theorem kept_completion_inv (tasks : List Task) (t : Nat)
    (ST : EngineState) (EQ : Array Event) (cjNew : Job)
    (hq : queue_pos ST.sched)
    (hheap : Heapq.IsHeap evKey EQ)
    (hTq : ∀ e ∈ EQ.toList, t ≤ e.time)
    (hRq : ∀ e ∈ EQ.toList, e.event_type = EventType.job_release →
      ∃ tk, tk ∈ tasks ∧ e.task = some tk)
    (hCq : ∀ e ∈ EQ.toList, e.event_type = EventType.job_completion →
      e.jobId = some cjNew.job_id)
    (hcnt : EQ.toList.countP
      (fun e => e.event_type == EventType.job_completion) = 1)
    (heqn : ∀ e ∈ EQ.toList, e.event_type = EventType.job_completion →
      (e.time : Int) = (t : Int) + cjNew.remaining)
    (hpos : 0 < cjNew.remaining) :
    EvInv tasks ⟨ST, EQ, some cjNew, t⟩ := by
  refine ⟨hheap, hTq, hq, hRq, ?_, ?_⟩
  · intro e he hcomp
    exact ⟨cjNew, rfl, hCq e he hcomp⟩
  · intro j hj
    injection hj with hj
    subst hj
    exact ⟨hpos, hcnt, heqn⟩

theorem idle_inv (tasks : List Task) (t : Nat)
    (ST : EngineState) (EQ : Array Event)
    (hq : queue_pos ST.sched)
    (hheap : Heapq.IsHeap evKey EQ)
    (hTq : ∀ e ∈ EQ.toList, t ≤ e.time)
    (hRq : ∀ e ∈ EQ.toList, e.event_type = EventType.job_release →
      ∃ tk, tk ∈ tasks ∧ e.task = some tk)
    (hnoc : EQ.toList.countP
      (fun e => e.event_type == EventType.job_completion) = 0) :
    EvInv tasks ⟨ST, EQ, none, t⟩ := by
  refine ⟨hheap, hTq, hq, hRq, ?_, ?_⟩
  · intro e he hcomp
    have := List.countP_eq_zero.mp hnoc e he
    simp [hcomp] at this
  · intro j hj
    exact absurd hj (by simp)

theorem event_body_release_eq (v : SchedulerVariant) (horizon : Nat)
    (preemptive : Bool) (s : EvLoop) (ev : Event) (rest : Array Event)
    (hpop : Heapq.heappop Event.lt s.eq = some (ev, rest))
    (hty : ev.event_type = EventType.job_release) :
    event_body v horizon preemptive s =
      ⟨(ev_release_phase v preemptive
          (handle_job_release v horizon (ev.task.getD default)
            { (ev_backfill s.last_time ev.time s.st s.cur).1 with
              current_time := ev.time } rest).1
          (handle_job_release v horizon (ev.task.getD default)
            { (ev_backfill s.last_time ev.time s.st s.cur).1 with
              current_time := ev.time } rest).2
          (ev_backfill s.last_time ev.time s.st s.cur).2 ev.time).1,
       (ev_release_phase v preemptive
          (handle_job_release v horizon (ev.task.getD default)
            { (ev_backfill s.last_time ev.time s.st s.cur).1 with
              current_time := ev.time } rest).1
          (handle_job_release v horizon (ev.task.getD default)
            { (ev_backfill s.last_time ev.time s.st s.cur).1 with
              current_time := ev.time } rest).2
          (ev_backfill s.last_time ev.time s.st s.cur).2 ev.time).2.1,
       (ev_release_phase v preemptive
          (handle_job_release v horizon (ev.task.getD default)
            { (ev_backfill s.last_time ev.time s.st s.cur).1 with
              current_time := ev.time } rest).1
          (handle_job_release v horizon (ev.task.getD default)
            { (ev_backfill s.last_time ev.time s.st s.cur).1 with
              current_time := ev.time } rest).2
          (ev_backfill s.last_time ev.time s.st s.cur).2 ev.time).2.2,
       ev.time⟩ := by
  obtain ⟨et, ety, ek, ej⟩ := ev
  change ety = EventType.job_release at hty
  subst hty
  unfold event_body
  rw [hpop]

theorem event_body_completion_eq (v : SchedulerVariant) (horizon : Nat)
    (preemptive : Bool) (s : EvLoop) (ev : Event) (rest : Array Event)
    (hpop : Heapq.heappop Event.lt s.eq = some (ev, rest))
    (hty : ev.event_type = EventType.job_completion) :
    event_body v horizon preemptive s =
      ⟨(ev_completion_phase
          { (ev_backfill s.last_time ev.time s.st s.cur).1 with
            current_time := ev.time } rest
          (ev_backfill s.last_time ev.time s.st s.cur).2 ev.time ev).1,
       (ev_completion_phase
          { (ev_backfill s.last_time ev.time s.st s.cur).1 with
            current_time := ev.time } rest
          (ev_backfill s.last_time ev.time s.st s.cur).2 ev.time ev).2.1,
       (ev_completion_phase
          { (ev_backfill s.last_time ev.time s.st s.cur).1 with
            current_time := ev.time } rest
          (ev_backfill s.last_time ev.time s.st s.cur).2 ev.time ev).2.2,
       ev.time⟩ := by
  obtain ⟨et, ety, ek, ej⟩ := ev
  change ety = EventType.job_completion at hty
  subst hty
  unfold event_body
  rw [hpop]

theorem event_body_spec (tasks : List Task) (v : SchedulerVariant)
    (horizon : Nat) (preemptive : Bool)
    (hvalid : ∀ t ∈ tasks, Task.valid t = true)
    (s : EvLoop) (hinv : EvInv tasks s) (hne : 0 < s.eq.size)
    (hguard : (Heapq.heapAt s.eq 0).time < horizon) :
    EvInv tasks (event_body v horizon preemptive s) ∧
    evPhi horizon (event_body v horizon preemptive s) < evPhi horizon s := by
  obtain ⟨hH, hT, hQ, hR, hC, hU⟩ := hinv
  obtain ⟨rest, hpop, hrsz, hrheap, hrperm⟩ :=
    Heapq.heappop_spec Event.lt evKey evKey_compat s.eq (by omega) hH
  set ev := Heapq.heapAt s.eq 0 with hev
  have hmin : ∀ e ∈ s.eq.toList, evKey ev ≤ evKey e := root_min_mem evKey s.eq hH
  have hmemev : ev ∈ s.eq.toList := hrperm.mem_iff.mpr (List.mem_cons_self _ _)
  have hrmem : ∀ e ∈ rest.toList, e ∈ s.eq.toList := fun e he =>
    hrperm.mem_iff.mpr (List.mem_cons_of_mem _ he)
  have hTev : s.last_time ≤ ev.time := hT ev hmemev
  have hrestT : ∀ e ∈ rest.toList, ev.time ≤ e.time := fun e he =>
    evKey_time_le (hmin e (hrmem e he))
  have hsum : (s.eq.toList.map (evCredit horizon)).sum =
      evCredit horizon ev + (rest.toList.map (evCredit horizon)).sum := by
    rw [sum_map_perm hrperm]
    rfl
  have hcntP : s.eq.toList.countP
      (fun e => e.event_type == EventType.job_completion) =
      rest.toList.countP (fun e => e.event_type == EventType.job_completion) +
        (if ev.event_type = EventType.job_completion then 1 else 0) := by
    rw [hrperm.countP_eq, List.countP_cons]
    by_cases h : ev.event_type = EventType.job_completion
    · rw [if_pos h]
      have hb : (ev.event_type == EventType.job_completion) = true := by
        simp [h]
      rw [hb]
      simp
    · rw [if_neg h]
      have hb : (ev.event_type == EventType.job_completion) = false := by
        simp [h]
      rw [hb]
      simp
  cases hty : ev.event_type with
  | job_release =>
    obtain ⟨tk, htkmem, htk⟩ := hR ev hmemev hty
    have hgetD : ev.task.getD default = tk := by rw [htk]; rfl
    obtain ⟨hw1, hp1, hd1, hdp⟩ := Task.valid_pos (hvalid tk htkmem)
    have hcredEv : evCredit horizon ev = 2 * chainLen horizon ev.time tk.period := by
      unfold evCredit
      rw [hty, htk]
      rfl
    have hchain : chainLen horizon ev.time tk.period =
        chainLen horizon (ev.time + tk.period) tk.period + 1 :=
      chainLen_step hp1 hguard
    rw [event_body_release_eq v horizon preemptive s ev rest hpop hty, hgetD]
    set bf := ev_backfill s.last_time ev.time s.st s.cur with hbf
    set st1 := { bf.1 with current_time := ev.time } with hst1
    set hr := handle_job_release v horizon tk st1 rest with hhr
    set R := ev_release_phase v preemptive hr.1 hr.2 bf.2 ev.time with hRdef
    have hst1sched : st1.sched = s.st.sched := by
      rw [hst1]
      show bf.1.sched = s.st.sched
      rw [hbf]
      exact ev_backfill_sched _ _ _ _
    have hst1t : st1.current_time = ev.time := by rw [hst1]
    set jN := (⟨tk, st1.current_time, (tk.wcet : Int),
      st1.current_time + tk.deadline, st1.job_counter⟩ : Job) with hjN
    have hhr2 : hr.2 = if ev.time + tk.period < horizon then
        Heapq.heappush Event.lt rest
          ⟨ev.time + tk.period, .job_release, some tk, none⟩
      else rest := by
      rw [hhr, handle_job_release_eq, hst1t]
    have hhr2heap : Heapq.IsHeap evKey hr.2 := by
      rw [hhr2]
      by_cases hpw : ev.time + tk.period < horizon
      · rw [if_pos hpw]
        exact (heappush_ev rest _ hrheap).1
      · rw [if_neg hpw]
        exact hrheap
    have hhr2mem : ∀ e ∈ hr.2.toList, e ∈ rest.toList ∨
        e = ⟨ev.time + tk.period, .job_release, some tk, none⟩ := by
      intro e he
      rw [hhr2] at he
      by_cases hpw : ev.time + tk.period < horizon
      · rw [if_pos hpw] at he
        have hm := ((heappush_ev rest _ hrheap).2.mem_iff).mp he
        rcases List.mem_cons.mp hm with h | h
        · right
          exact h
        · left
          exact h
      · rw [if_neg hpw] at he
        left
        exact he
    have hhr2T : ∀ e ∈ hr.2.toList, ev.time ≤ e.time := by
      intro e he
      rcases hhr2mem e he with h | h
      · exact hrestT e h
      · rw [h]
        simp
    have hhr2R : ∀ e ∈ hr.2.toList, e.event_type = EventType.job_release →
        ∃ t, t ∈ tasks ∧ e.task = some t := by
      intro e he hrel
      rcases hhr2mem e he with h | h
      · exact hR e (hrmem e h) hrel
      · rw [h]
        exact ⟨tk, htkmem, rfl⟩
    have hhr2comp : ∀ e ∈ hr.2.toList,
        e.event_type = EventType.job_completion → e ∈ rest.toList := by
      intro e he hcomp
      rcases hhr2mem e he with h | h
      · exact h
      · rw [h] at hcomp
        simp at hcomp
    have hhr2cnt : hr.2.toList.countP
        (fun e => e.event_type == EventType.job_completion) =
        rest.toList.countP
          (fun e => e.event_type == EventType.job_completion) := by
      rw [hhr2]
      by_cases hpw : ev.time + tk.period < horizon
      · rw [if_pos hpw,
          (heappush_ev rest _ hrheap).2.countP_eq
            (fun e => e.event_type == EventType.job_completion),
          List.countP_cons]
        simp
      · rw [if_neg hpw]
    have hhr2sum : (hr.2.toList.map (evCredit horizon)).sum ≤
        (rest.toList.map (evCredit horizon)).sum +
          2 * chainLen horizon (ev.time + tk.period) tk.period := by
      rw [hhr2]
      by_cases hpw : ev.time + tk.period < horizon
      · rw [if_pos hpw,
          sum_map_perm (heappush_ev rest _ hrheap).2 (evCredit horizon),
          List.map_cons, List.sum_cons]
        have hcN : evCredit horizon
            ⟨ev.time + tk.period, .job_release, some tk, none⟩ =
            2 * chainLen horizon (ev.time + tk.period) tk.period := rfl
        rw [hcN]
        omega
      · rw [if_neg hpw]
        omega
    have hhr1sched : hr.1.sched = Scheduler.add_job v s.st.sched jN := by
      rw [hhr, handle_job_release_eq]
      show Scheduler.add_job v st1.sched jN = _
      rw [hst1sched]
    have hjNpos : 0 < jN.remaining := by
      rw [hjN]
      show (0:Int) < (tk.wcet : Int)
      exact_mod_cast hw1
    have hQ1 : queue_pos hr.1.sched := by
      rw [hhr1sched]
      exact add_job_qp hQ hjNpos
    have hlen1 : hr.1.sched.ready_queue.length =
        s.st.sched.ready_queue.length + 1 := by
      rw [hhr1sched, add_job_queue]
      simp
    have hPhiOld : evPhi horizon s =
        2 * chainLen horizon ev.time tk.period +
          (rest.toList.map (evCredit horizon)).sum +
          s.st.sched.ready_queue.length := by
      unfold evPhi
      rw [hsum, hcredEv]
    cases hcur : s.cur with
    | some cj =>
      obtain ⟨hcjpos, hcnt1, heqn⟩ := hU cj hcur
      have hcpos : 0 < s.eq.toList.countP
          (fun e => e.event_type == EventType.job_completion) := by
        rw [hcnt1]
        omega
      obtain ⟨ce, hcemem, hcep⟩ := List.countP_pos.mp hcpos
      have hcety : ce.event_type = EventType.job_completion := by
        simpa using hcep
      have hcetime : (ce.time : Int) = (s.last_time : Int) + cj.remaining :=
        heqn ce hcemem hcety
      have hevlt : ev.time < ce.time :=
        evKey_release_lt hty hcety (hmin ce hcemem)
      set cj2 := ({ cj with remaining :=
        cj.remaining - ((ev.time : Int) - (s.last_time : Int)) } : Job) with hcj2
      have hbf2 : bf.2 = some cj2 := by
        rw [hbf, ev_backfill_snd _ _ _ _ hTev, hcur]
        rfl
      have hcj2pos : 0 < cj2.remaining := by
        rw [hcj2]
        show 0 < cj.remaining - ((ev.time : Int) - (s.last_time : Int))
        omega
      have hcj2id : cj2.job_id = cj.job_id := rfl
      have hcntrest : rest.toList.countP
          (fun e => e.event_type == EventType.job_completion) = 1 := by
        rw [hcntP, hty] at hcnt1
        simpa using hcnt1
      have heqnrest : ∀ e ∈ rest.toList,
          e.event_type = EventType.job_completion →
          (e.time : Int) = (ev.time : Int) + cj2.remaining := by
        intro e he hety
        have h1 := heqn e (hrmem e he) hety
        rw [hcj2]
        show (e.time : Int) =
          (ev.time : Int) + (cj.remaining - ((ev.time : Int) - (s.last_time : Int)))
        omega
      have hidrest : ∀ e ∈ rest.toList,
          e.event_type = EventType.job_completion →
          e.jobId = some cj.job_id := by
        intro e he hety
        obtain ⟨j, hj1, hj2⟩ := hC e (hrmem e he) hety
        rw [hcur] at hj1
        injection hj1 with hj1
        rw [hj1]
        exact hj2
      rw [hbf2] at hRdef
      simp only [ev_release_phase] at hRdef
      by_cases hpj : (preemptive && Scheduler.has_jobs hr.1.sched) = true
      · rw [if_pos hpj] at hRdef
        have hpj2 := hpj
        rw [Bool.and_eq_true] at hpj2
        have hnej : hr.1.sched.ready_queue ≠ [] := (has_jobs_iff _).mp hpj2.2
        rcases get_next_job_spec hr.1.sched with ⟨hqe, _⟩ | ⟨en, henmem, hgn, hlen2⟩
        · exact absurd hqe hnej
        · set sq2 := { hr.1.sched with ready_queue := hr.1.sched.ready_queue.erase en } with hsq2
          have hsq2len : sq2.ready_queue.length =
              (hr.1.sched.ready_queue.erase en).length := rfl
          have hnjpos : 0 < en.2.2.remaining := hQ1 en henmem
          by_cases hsp : should_preempt v cj2 en.2.2 = true
          · -- preempt: requeue the occupant, dispatch the new job
            have hR3 : R = ({ hr.1 with sched := Scheduler.add_job v sq2 cj2 },
                schedule_completion en.2.2
                  (remove_completion_events cj2.job_id hr.2) ev.time,
                some en.2.2) := by
              rw [hRdef]
              simp only [hgn]
              rw [if_pos hsp]
            rw [hR3]
            obtain ⟨hrcheap, hrcperm⟩ := remove_completion_spec cj2.job_id hr.2
            have hrcmem : ∀ e ∈ (remove_completion_events cj2.job_id hr.2).toList,
                e ∈ hr.2.toList := by
              intro e he
              exact mem_filter_events (hrcperm.mem_iff.mp he)
            obtain ⟨hfsum, hfcnt⟩ := filter_completion_spec cj2.job_id
              (evCredit horizon) hr.2.toList
              (by
                intro e he hc
                rw [hcj2id]
                exact hidrest e (hhr2comp e he hc) hc)
              (by
                intro e he hc
                unfold evCredit
                rw [hc])
            have hrccnt : (remove_completion_events cj2.job_id hr.2).toList.countP
                (fun e => e.event_type == EventType.job_completion) = 0 := by
              rw [hrcperm.countP_eq
                (fun e => e.event_type == EventType.job_completion)]
              exact hfcnt
            have hrcsum : ((remove_completion_events cj2.job_id
                hr.2).toList.map (evCredit horizon)).sum + 1 =
                (hr.2.toList.map (evCredit horizon)).sum := by
              rw [sum_map_perm hrcperm (evCredit horizon)]
              rw [hhr2cnt, hcntrest] at hfsum
              exact hfsum
            constructor
            · refine fresh_completion_inv tasks ev.time _ _ en.2.2 ?_ hrcheap
                ?_ ?_ hrccnt hnjpos
              · show queue_pos (Scheduler.add_job v sq2 cj2)
                exact add_job_qp (erase_qp hQ1) hcj2pos
              · intro e he
                exact hhr2T e (hrcmem e he)
              · intro e he hrel
                exact hhr2R e (hrcmem e he) hrel
            · show ((schedule_completion en.2.2
                  (remove_completion_events cj2.job_id hr.2) ev.time).toList.map
                    (evCredit horizon)).sum +
                (Scheduler.add_job v sq2 cj2).ready_queue.length < evPhi horizon s
              rw [schedule_completion_eq,
                sum_map_perm (heappush_ev _ _ hrcheap).2 (evCredit horizon),
                List.map_cons, List.sum_cons, add_job_queue, List.length_append]
              have hc1 : evCredit horizon
                  ⟨ev.time + en.2.2.remaining.toNat, .job_completion, none,
                    some en.2.2.job_id⟩ = 1 := rfl
              rw [hc1, hPhiOld]
              simp only [List.length_singleton]
              rw [hcj2id] at hrcsum
              omega
          · -- no preemption: requeue the pending job, keep the occupant
            have hR3 : R = ({ hr.1 with sched := Scheduler.add_job v sq2 en.2.2 },
                hr.2, some cj2) := by
              rw [hRdef]
              simp only [hgn]
              rw [if_neg hsp]
            rw [hR3]
            constructor
            · refine kept_completion_inv tasks ev.time _ _ cj2 ?_ hhr2heap
                hhr2T hhr2R ?_ ?_ ?_ hcj2pos
              · show queue_pos (Scheduler.add_job v sq2 en.2.2)
                exact add_job_qp (erase_qp hQ1) hnjpos
              · intro e he hc
                rw [hcj2id]
                exact hidrest e (hhr2comp e he hc) hc
              · rw [hhr2cnt]
                exact hcntrest
              · intro e he hc
                exact heqnrest e (hhr2comp e he hc) hc
            · show (hr.2.toList.map (evCredit horizon)).sum +
                (Scheduler.add_job v sq2 en.2.2).ready_queue.length <
                  evPhi horizon s
              rw [add_job_queue, List.length_append, hPhiOld]
              simp only [List.length_singleton]
              omega
      · rw [if_neg hpj] at hRdef
        rw [hRdef]
        constructor
        · refine kept_completion_inv tasks ev.time _ _ cj2 hQ1 hhr2heap
            hhr2T hhr2R ?_ ?_ ?_ hcj2pos
          · intro e he hc
            rw [hcj2id]
            exact hidrest e (hhr2comp e he hc) hc
          · rw [hhr2cnt]
            exact hcntrest
          · intro e he hc
            exact heqnrest e (hhr2comp e he hc) hc
        · show (hr.2.toList.map (evCredit horizon)).sum +
            hr.1.sched.ready_queue.length < evPhi horizon s
          rw [hPhiOld]
          omega
    | none =>
      have hbf2 : bf.2 = none := by
        rw [hbf, ev_backfill_snd _ _ _ _ hTev, hcur]
        rfl
      have hnocomp : ∀ e ∈ s.eq.toList,
          e.event_type ≠ EventType.job_completion := by
        intro e he hc
        obtain ⟨j, hj, _⟩ := hC e he hc
        rw [hcur] at hj
        simp at hj
      have hcntrest0 : rest.toList.countP
          (fun e => e.event_type == EventType.job_completion) = 0 := by
        rw [List.countP_eq_zero]
        intro e he
        have hn := hnocomp e (hrmem e he)
        simp [hn]
      have hhr2cnt0 : hr.2.toList.countP
          (fun e => e.event_type == EventType.job_completion) = 0 := by
        rw [hhr2cnt]
        exact hcntrest0
      rw [hbf2] at hRdef
      simp only [ev_release_phase] at hRdef
      by_cases hhj : Scheduler.has_jobs hr.1.sched = true
      · rw [if_pos hhj] at hRdef
        have hnej := (has_jobs_iff _).mp hhj
        rcases get_next_job_spec hr.1.sched with ⟨hqe, _⟩ | ⟨en, henmem, hgn, hlen2⟩
        · exact absurd hqe hnej
        · set sq2 := { hr.1.sched with ready_queue := hr.1.sched.ready_queue.erase en } with hsq2
          have hsq2len : sq2.ready_queue.length =
              (hr.1.sched.ready_queue.erase en).length := rfl
          have hnjpos : 0 < en.2.2.remaining := hQ1 en henmem
          have hR3 : R = ({ hr.1 with sched := sq2 },
              schedule_completion en.2.2 hr.2 ev.time, some en.2.2) := by
            rw [hRdef]
            unfold ev_dispatch
            simp only [hgn]
          rw [hR3]
          constructor
          · refine fresh_completion_inv tasks ev.time _ _ en.2.2 ?_ hhr2heap
              hhr2T hhr2R hhr2cnt0 hnjpos
            exact erase_qp hQ1
          · show ((schedule_completion en.2.2 hr.2 ev.time).toList.map
                (evCredit horizon)).sum + sq2.ready_queue.length < evPhi horizon s
            rw [schedule_completion_eq,
              sum_map_perm (heappush_ev _ _ hhr2heap).2 (evCredit horizon),
              List.map_cons, List.sum_cons]
            have hc1 : evCredit horizon
                ⟨ev.time + en.2.2.remaining.toNat, .job_completion, none,
                  some en.2.2.job_id⟩ = 1 := rfl
            rw [hc1, hPhiOld]
            omega
      · rw [if_neg hhj] at hRdef
        rw [hRdef]
        constructor
        · exact idle_inv tasks ev.time _ _ hQ1 hhr2heap hhr2T hhr2R hhr2cnt0
        · show (hr.2.toList.map (evCredit horizon)).sum +
            hr.1.sched.ready_queue.length < evPhi horizon s
          rw [hPhiOld]
          omega
  | job_completion =>
    obtain ⟨cj, hcur, hevid⟩ := hC ev hmemev hty
    obtain ⟨hcjpos, hcnt1, heqn⟩ := hU cj hcur
    have hevtime : (ev.time : Int) = (s.last_time : Int) + cj.remaining :=
      heqn ev hmemev hty
    have hcredEv : evCredit horizon ev = 1 := by
      unfold evCredit
      rw [hty]
    rw [event_body_completion_eq v horizon preemptive s ev rest hpop hty]
    set bf := ev_backfill s.last_time ev.time s.st s.cur with hbf
    set st1 := { bf.1 with current_time := ev.time } with hst1
    set R := ev_completion_phase st1 rest bf.2 ev.time ev with hRdef
    have hst1sched : st1.sched = s.st.sched := by
      rw [hst1]
      show bf.1.sched = s.st.sched
      rw [hbf]
      exact ev_backfill_sched _ _ _ _
    set cj2 := ({ cj with remaining :=
      cj.remaining - ((ev.time : Int) - (s.last_time : Int)) } : Job) with hcj2
    have hbf2 : bf.2 = some cj2 := by
      rw [hbf, ev_backfill_snd _ _ _ _ hTev, hcur]
      rfl
    have hcj2z : cj2.remaining = 0 := by
      rw [hcj2]
      show cj.remaining - ((ev.time : Int) - (s.last_time : Int)) = 0
      omega
    have hcntrest0 : rest.toList.countP
        (fun e => e.event_type == EventType.job_completion) = 0 := by
      rw [hcntP, hty] at hcnt1
      simp at hcnt1
      rw [List.countP_eq_zero]
      intro a ha
      simp [hcnt1 a ha]
    have hPhiOld : evPhi horizon s =
        1 + (rest.toList.map (evCredit horizon)).sum +
          s.st.sched.ready_queue.length := by
      unfold evPhi
      rw [hsum, hcredEv]
    rw [hbf2] at hRdef
    simp only [ev_completion_phase] at hRdef
    have hg1 : (ev.jobId == some cj2.job_id) = true := by
      have hid : cj2.job_id = cj.job_id := rfl
      rw [hid, hevid]
      simp
    have hg2 : decide (cj2.remaining ≤ 0) = true := by
      rw [hcj2z]
      simp
    rw [if_pos (by rw [Bool.and_eq_true]; exact ⟨hg1, hg2⟩)] at hRdef
    have hCJsched : (complete_job st1 cj2).sched = s.st.sched := by
      rw [complete_job_sched, hst1sched]
    have hQcj : queue_pos (complete_job st1 cj2).sched := by
      rw [hCJsched]
      exact hQ
    have hRrest : ∀ e ∈ rest.toList, e.event_type = EventType.job_release →
        ∃ t, t ∈ tasks ∧ e.task = some t := fun e he hrel =>
      hR e (hrmem e he) hrel
    by_cases hhj : Scheduler.has_jobs (complete_job st1 cj2).sched = true
    · rw [if_pos hhj] at hRdef
      have hnej := (has_jobs_iff _).mp hhj
      rcases get_next_job_spec (complete_job st1 cj2).sched with
        ⟨hqe, _⟩ | ⟨en, henmem, hgn, hlen2⟩
      · exact absurd hqe hnej
      · set sq2 := { (complete_job st1 cj2).sched with ready_queue := (complete_job st1 cj2).sched.ready_queue.erase en } with hsq2
        have hnjpos : 0 < en.2.2.remaining := hQcj en henmem
        have hR3 : R = ({ complete_job st1 cj2 with sched := sq2 },
            schedule_completion en.2.2 rest ev.time, some en.2.2) := by
          rw [hRdef]
          unfold ev_dispatch
          simp only [hgn]
        rw [hR3]
        have hlen3 : (complete_job st1 cj2).sched.ready_queue.length =
            s.st.sched.ready_queue.length := by
          rw [hCJsched]
        constructor
        · refine fresh_completion_inv tasks ev.time _ _ en.2.2 ?_ hrheap
            hrestT hRrest hcntrest0 hnjpos
          exact erase_qp hQcj
        · show ((schedule_completion en.2.2 rest ev.time).toList.map
              (evCredit horizon)).sum + sq2.ready_queue.length < evPhi horizon s
          rw [schedule_completion_eq,
            sum_map_perm (heappush_ev _ _ hrheap).2 (evCredit horizon),
            List.map_cons, List.sum_cons]
          have hc1 : evCredit horizon
              ⟨ev.time + en.2.2.remaining.toNat, .job_completion, none,
                some en.2.2.job_id⟩ = 1 := rfl
          have hsq2len : sq2.ready_queue.length =
              ((complete_job st1 cj2).sched.ready_queue.erase en).length := rfl
          rw [hc1, hPhiOld, hsq2len]
          omega
    · rw [if_neg hhj] at hRdef
      rw [hRdef]
      constructor
      · exact idle_inv tasks ev.time _ _ hQcj hrheap hrestT hRrest hcntrest0
      · show (rest.toList.map (evCredit horizon)).sum +
          (complete_job st1 cj2).sched.ready_queue.length < evPhi horizon s
        have hlen3 : (complete_job st1 cj2).sched.ready_queue.length =
            s.st.sched.ready_queue.length := by
          rw [hCJsched]
        rw [hPhiOld, hlen3]
        omega

end RTSim

namespace RTSim

theorem event_loop_inv (tasks : List Task) (v : SchedulerVariant)
    (horizon : Nat) (preemptive : Bool)
    (hvalid : ∀ t ∈ tasks, Task.valid t = true) :
    ∀ (fuel : Nat) (s : EvLoop), EvInv tasks s →
      EvInv tasks (event_loop v horizon preemptive fuel s) := by
  intro fuel
  induction fuel with
  | zero =>
    intro s h
    exact h
  | succ f ih =>
    intro s h
    unfold event_loop
    split
    · exact h
    · next e0 hg =>
      by_cases hlt : e0.time < horizon
      · rw [if_pos hlt]
        have hsz : 0 < s.eq.size := by
          by_contra hz
          unfold Array.get? at hg
          rw [dif_neg (by omega)] at hg
          exact absurd hg (by simp)
        have he0 : e0 = Heapq.heapAt s.eq 0 := by
          rw [get?_zero s.eq hsz] at hg
          injection hg with hg
          exact hg.symm
        exact ih _ (event_body_spec tasks v horizon preemptive hvalid s h hsz
          (by rw [← he0]; exact hlt)).1
      · rw [if_neg hlt]
        exact h

theorem event_loop_exit (tasks : List Task) (v : SchedulerVariant)
    (horizon : Nat) (preemptive : Bool)
    (hvalid : ∀ t ∈ tasks, Task.valid t = true) :
    ∀ (fuel : Nat) (s : EvLoop), EvInv tasks s → evPhi horizon s < fuel →
      EvDone horizon (event_loop v horizon preemptive fuel s) := by
  intro fuel
  induction fuel with
  | zero =>
    intro s _ h
    omega
  | succ f ih =>
    intro s hinv hphi
    unfold event_loop
    split
    · next hg =>
      intro e0 h0
      rw [hg] at h0
      exact absurd h0 (by simp)
    · next e0 hg =>
      by_cases hlt : e0.time < horizon
      · rw [if_pos hlt]
        have hsz : 0 < s.eq.size := by
          by_contra hz
          unfold Array.get? at hg
          rw [dif_neg (by omega)] at hg
          exact absurd hg (by simp)
        have he0 : e0 = Heapq.heapAt s.eq 0 := by
          rw [get?_zero s.eq hsz] at hg
          injection hg with hg
          exact hg.symm
        obtain ⟨hinv2, hdec⟩ := event_body_spec tasks v horizon preemptive
          hvalid s hinv hsz (by rw [← he0]; exact hlt)
        exact ih _ hinv2 (by omega)
      · rw [if_neg hlt]
        intro e1 h1
        rw [hg] at h1
        injection h1 with h1
        rw [← h1]
        omega

theorem seedEvents_spec (tasks : List Task) :
    Heapq.IsHeap evKey (seedEvents tasks) ∧
    List.Perm (seedEvents tasks).toList
      (tasks.map (fun t => ⟨0, .job_release, some t, none⟩)) := by
  unfold seedEvents
  have key : ∀ (l : List Task) (eq : Array Event), Heapq.IsHeap evKey eq →
      Heapq.IsHeap evKey (l.foldl (fun eq task => Heapq.heappush Event.lt eq
        ⟨0, .job_release, some task, none⟩) eq) ∧
      List.Perm (l.foldl (fun eq task => Heapq.heappush Event.lt eq
        ⟨0, .job_release, some task, none⟩) eq).toList
        ((l.map (fun t => (⟨0, .job_release, some t, none⟩ : Event))) ++
          eq.toList) := by
    intro l
    induction l with
    | nil =>
      intro eq hh
      exact ⟨hh, by simp⟩
    | cons t ts ih =>
      intro eq hh
      simp only [List.foldl_cons]
      obtain ⟨hph, hpperm⟩ := heappush_ev eq ⟨0, .job_release, some t, none⟩ hh
      obtain ⟨h1, h2⟩ := ih _ hph
      refine ⟨h1, ?_⟩
      refine h2.trans ?_
      have p1 := List.Perm.append_left
        (ts.map (fun t => (⟨0, .job_release, some t, none⟩ : Event))) hpperm
      refine p1.trans ?_
      exact List.perm_middle
  have hempty : Heapq.IsHeap evKey (#[] : Array Event) := by
    intro c hc0 hcs _
    simp at hcs
  obtain ⟨h1, h2⟩ := key tasks #[] hempty
  refine ⟨h1, ?_⟩
  simpa using h2

theorem initial_EvInv (tasks : List Task) (st0 : EngineState) :
    EvInv tasks ⟨reset st0, seedEvents tasks, none, 0⟩ := by
  obtain ⟨hh, hperm⟩ := seedEvents_spec tasks
  have hmem : ∀ e ∈ (seedEvents tasks).toList, ∃ t, t ∈ tasks ∧
      e = ⟨0, .job_release, some t, none⟩ := by
    intro e he
    have hm := hperm.mem_iff.mp he
    simp only [List.mem_map] at hm
    obtain ⟨t, ht, hte⟩ := hm
    exact ⟨t, ht, hte.symm⟩
  refine ⟨hh, ?_, ?_, ?_, ?_, ?_⟩
  · intro e he
    exact Nat.zero_le _
  · intro e he
    have hz : (reset st0).sched.ready_queue = [] := rfl
    rw [hz] at he
    simp at he
  · intro e he hrel
    obtain ⟨t, ht, hte⟩ := hmem e he
    exact ⟨t, ht, by rw [hte]⟩
  · intro e he hcomp
    obtain ⟨t, _, hte⟩ := hmem e he
    rw [hte] at hcomp
    simp at hcomp
  · intro j hj
    simp at hj

theorem evPhi_init_lt (tasks : List Task) (horizon : Nat) (st0 : EngineState)
    (hvalid : ∀ t ∈ tasks, Task.valid t = true) :
    evPhi horizon ⟨reset st0, seedEvents tasks, none, 0⟩ <
      eventFuel tasks horizon := by
  unfold evPhi eventFuel
  obtain ⟨_, hperm⟩ := seedEvents_spec tasks
  rw [sum_map_perm hperm (evCredit horizon)]
  have hlen0 : (reset st0).sched.ready_queue.length = 0 := rfl
  rw [hlen0]
  have hb : ∀ l : List Task, (∀ t ∈ l, Task.valid t = true) →
      ((l.map (fun t => (⟨0, .job_release, some t, none⟩ : Event))).map
        (evCredit horizon)).sum ≤ l.length * (2 * horizon) := by
    intro l
    induction l with
    | nil =>
      intro _
      simp
    | cons t ts ih =>
      intro hv
      simp only [List.map_cons, List.sum_cons, List.length_cons]
      have h1 : evCredit horizon ⟨0, .job_release, some t, none⟩ =
          2 * chainLen horizon 0 t.period := rfl
      have h2 : chainLen horizon 0 t.period ≤ horizon :=
        chainLen_le (Task.valid_pos (hv t (List.mem_cons_self t ts))).2.1
      have h3 := ih (fun x hx => hv x (List.mem_cons_of_mem t hx))
      have h4 : (ts.length + 1) * (2 * horizon) =
          ts.length * (2 * horizon) + 2 * horizon := by ring
      rw [h1, h4]
      omega
  have h5 := hb tasks hvalid
  have h6 : tasks.length * (2 * horizon) = 2 * (tasks.length * horizon) := by
    ring
  have h7 : 4 * (tasks.length + 1) * (horizon + 1) =
      4 * (tasks.length * horizon) + 4 * tasks.length + 4 * horizon + 4 := by
    ring
  rw [h6] at h5
  rw [h7]
  omega

theorem evdone_occupant (tasks : List Task) (horizon : Nat) (s : EvLoop)
    (hinv : EvInv tasks s) (hdone : EvDone horizon s) :
    ∀ j, s.cur = some j →
      0 ≤ j.remaining - ((horizon : Int) - (s.last_time : Int)) := by
  intro j hj
  obtain ⟨hH, hT, _, _, _, hU⟩ := hinv
  obtain ⟨hpos, hcnt, heqn⟩ := hU j hj
  have hcpos : 0 < s.eq.toList.countP
      (fun e => e.event_type == EventType.job_completion) := by
    rw [hcnt]
    omega
  obtain ⟨ce, hcemem, hcep⟩ := List.countP_pos.mp hcpos
  have hcety : ce.event_type = EventType.job_completion := by simpa using hcep
  have hcetime := heqn ce hcemem hcety
  have hsz : 0 < s.eq.size := by
    have hl : 0 < s.eq.toList.length := List.length_pos.mpr (by
      intro hnil
      rw [hnil] at hcemem
      simp at hcemem)
    rw [← Array.length_toList]
    exact hl
  have hroot := hdone (Heapq.heapAt s.eq 0) (get?_zero s.eq hsz)
  have hle : (Heapq.heapAt s.eq 0).time ≤ ce.time :=
    evKey_time_le (root_min_mem evKey s.eq hH ce hcemem)
  omega

end RTSim

namespace RTSim

theorem release_jobs_qp (v : SchedulerVariant) :
    ∀ (tasks : List Task) (st : EngineState),
      (∀ t ∈ tasks, Task.valid t = true) → queue_pos st.sched →
      queue_pos (release_jobs tasks v st).sched := by
  intro tasks
  induction tasks with
  | nil =>
    intro st _ hq
    exact hq
  | cons t ts ih =>
    intro st hv hq
    unfold release_jobs
    simp only [List.foldl_cons]
    refine ih _ (fun x hx => hv x (List.mem_cons_of_mem t hx)) ?_
    by_cases hm : st.current_time % t.period = 0
    · simp only [if_pos hm]
      show queue_pos (Scheduler.add_job v st.sched _)
      refine add_job_qp hq ?_
      show (0:Int) < (t.wcet : Int)
      exact_mod_cast (Task.valid_pos (hv t (List.mem_cons_self t ts))).1
    · simp only [if_neg hm]
      exact hq

theorem completion_phase_spec (st : EngineState) (cur : Option Job)
    (hq : queue_pos st.sched) :
    queue_pos (completion_phase st cur).1.sched ∧
    ∀ j, (completion_phase st cur).2 = some j → 0 < j.remaining := by
  cases cur with
  | none =>
    exact ⟨hq, by intro j hj; simp [completion_phase] at hj⟩
  | some j0 =>
    simp only [completion_phase]
    by_cases hf : j0.is_finished = true
    · rw [if_pos hf]
      constructor
      · show queue_pos (complete_job st j0).sched
        rw [complete_job_sched]
        exact hq
      · intro j hj
        simp at hj
    · rw [if_neg hf]
      refine ⟨hq, ?_⟩
      intro j hj
      injection hj with hj
      rw [← hj]
      unfold Job.is_finished at hf
      simp at hf
      omega

theorem preemption_check_spec (v : SchedulerVariant) (sched : SchedState)
    (cj : Job) (hq : queue_pos sched) (hcj : 0 < cj.remaining) :
    queue_pos (preemption_check v sched cj).1 ∧
    0 < (preemption_check v sched cj).2.remaining := by
  unfold preemption_check
  rcases get_next_job_spec sched with ⟨hqe, hge⟩ | ⟨en, henmem, hgn, _⟩
  · simp only [hge]
    exact ⟨hq, hcj⟩
  · simp only [hgn]
    have hen : 0 < en.2.2.remaining := hq en henmem
    by_cases hsp : should_preempt v cj en.2.2 = true
    · rw [if_pos hsp]
      exact ⟨add_job_qp (erase_qp hq) hcj, hen⟩
    · rw [if_neg hsp]
      exact ⟨add_job_qp (erase_qp hq) hen, hcj⟩

theorem preemption_phase_spec (v : SchedulerVariant) (preemptive : Bool)
    (st : EngineState) (cur : Option Job) (hq : queue_pos st.sched)
    (hc : ∀ j, cur = some j → 0 < j.remaining) :
    queue_pos (preemption_phase v preemptive st cur).1.sched ∧
    ∀ j, (preemption_phase v preemptive st cur).2 = some j →
      0 < j.remaining := by
  cases cur with
  | none =>
    exact ⟨hq, by intro j hj; simp [preemption_phase] at hj⟩
  | some cj =>
    simp only [preemption_phase]
    have hcj : 0 < cj.remaining := hc cj rfl
    by_cases hp : (preemptive && Scheduler.has_jobs st.sched) = true
    · rw [if_pos hp]
      obtain ⟨h1, h2⟩ := preemption_check_spec v st.sched cj hq hcj
      refine ⟨h1, ?_⟩
      intro j hj
      injection hj with hj
      rw [← hj]
      exact h2
    · rw [if_neg hp]
      refine ⟨hq, ?_⟩
      intro j hj
      injection hj with hj
      rw [← hj]
      exact hcj

theorem dispatch_phase_spec (st : EngineState) (cur : Option Job)
    (hq : queue_pos st.sched)
    (hc : ∀ j, cur = some j → 0 < j.remaining) :
    queue_pos (dispatch_phase st cur).1.sched ∧
    ∀ j, (dispatch_phase st cur).2 = some j → 0 < j.remaining := by
  unfold dispatch_phase
  cases cur with
  | some j0 =>
    exact ⟨hq, hc⟩
  | none =>
    rcases get_next_job_spec st.sched with ⟨hqe, hge⟩ | ⟨en, henmem, hgn, _⟩
    · simp only [hge]
      exact ⟨hq, by intro j hj; simp at hj⟩
    · simp only [hgn]
      refine ⟨erase_qp hq, ?_⟩
      intro j hj
      injection hj with hj
      rw [← hj]
      exact hq en henmem

theorem execute_phase_spec (time : Nat) (st : EngineState) (cur : Option Job)
    (hq : queue_pos st.sched)
    (hc : ∀ j, cur = some j → 0 < j.remaining) :
    queue_pos (execute_phase time st cur).1.sched ∧
    ∀ j, (execute_phase time st cur).2 = some j → 0 ≤ j.remaining := by
  unfold execute_phase
  cases cur with
  | none =>
    exact ⟨hq, by intro j hj; simp at hj⟩
  | some j0 =>
    refine ⟨hq, ?_⟩
    intro j hj
    injection hj with hj
    rw [← hj]
    show 0 ≤ j0.remaining - 1
    have := hc j0 rfl
    omega

theorem tick_step_inv (tasks : List Task) (v : SchedulerVariant)
    (preemptive : Bool) (hvalid : ∀ t ∈ tasks, Task.valid t = true)
    (acc : EngineState × Option Job) (time : Nat)
    (hq : queue_pos acc.1.sched)
    (hc : ∀ j, acc.2 = some j → 0 ≤ j.remaining) :
    queue_pos (tick_step tasks v preemptive acc time).1.sched ∧
    ∀ j, (tick_step tasks v preemptive acc time).2 = some j →
      0 ≤ j.remaining := by
  have h0 : queue_pos
      (release_jobs tasks v { acc.1 with current_time := time }).sched :=
    release_jobs_qp v tasks _ hvalid hq
  obtain ⟨h1q, h1c⟩ := completion_phase_spec _ acc.2 h0
  obtain ⟨h2q, h2c⟩ := preemption_phase_spec v preemptive _ _ h1q h1c
  obtain ⟨h3q, h3c⟩ := dispatch_phase_spec _ _ h2q h2c
  obtain ⟨h4q, h4c⟩ := execute_phase_spec time _ _ h3q h3c
  exact ⟨h4q, h4c⟩

theorem tick_loop_inv (tasks : List Task) (v : SchedulerVariant)
    (preemptive : Bool) (hvalid : ∀ t ∈ tasks, Task.valid t = true)
    (st0 : EngineState) :
    ∀ (k : Nat),
      queue_pos (tick_loop tasks v preemptive k st0).1.sched ∧
      ∀ j, (tick_loop tasks v preemptive k st0).2 = some j →
        0 ≤ j.remaining := by
  intro k
  induction k with
  | zero =>
    constructor
    · intro e he
      have hz : (reset st0).sched.ready_queue = [] := rfl
      show e.2.2.remaining > 0
      have he2 : e ∈ (reset st0).sched.ready_queue := he
      rw [hz] at he2
      simp at he2
    · intro j hj
      simp [tick_loop] at hj
  | succ n ih =>
    obtain ⟨ihq, ihc⟩ := ih
    unfold tick_loop
    rw [List.range_succ, List.foldl_append]
    simp only [List.foldl_cons, List.foldl_nil]
    exact tick_step_inv tasks v preemptive hvalid _ n ihq ihc

end RTSim

namespace RTSim

/-- **C10** — throughout any run of either engine, every job stored in the
ready queue has remaining execution time strictly greater than 0, and no
job's remaining execution time ever becomes negative.  Tick engine: after
every tick prefix the ready queue is positive and the occupant's remaining
time is ≥ 0 (a finished occupant is cleared before the unit decrement, so
the decrement acts on remaining ≥ 1).  Event engine: after any number of
loop iterations the ready queue is positive and the occupant's remaining
time is strictly positive, and the final backfill to the horizon cannot
drive the occupant's remaining time below zero, because its completion
event sits in the queue at dispatch time plus its remaining time and the
loop only stops once every queued event lies at or beyond the horizon. -/
theorem c10_ready_queue_positive (tasks : List Task) (v : SchedulerVariant)
    (horizon : Nat) (preemptive : Bool) (st0 : EngineState)
    (hvalid : ∀ t ∈ tasks, Task.valid t = true) :
    (∀ k : Nat,
      queue_pos (tick_loop tasks v preemptive k st0).1.sched ∧
      ∀ j, (tick_loop tasks v preemptive k st0).2 = some j →
        0 ≤ j.remaining) ∧
    (∀ fuel : Nat,
      queue_pos (event_loop v horizon preemptive fuel
        ⟨reset st0, seedEvents tasks, none, 0⟩).st.sched ∧
      ∀ j, (event_loop v horizon preemptive fuel
        ⟨reset st0, seedEvents tasks, none, 0⟩).cur = some j →
        0 < j.remaining) ∧
    (∀ j, (event_loop v horizon preemptive (eventFuel tasks horizon)
        ⟨reset st0, seedEvents tasks, none, 0⟩).cur = some j →
      0 ≤ j.remaining - ((horizon : Int) -
        ((event_loop v horizon preemptive (eventFuel tasks horizon)
          ⟨reset st0, seedEvents tasks, none, 0⟩).last_time : Int))) := by
  refine ⟨tick_loop_inv tasks v preemptive hvalid st0, ?_, ?_⟩
  · intro fuel
    have hinv := event_loop_inv tasks v horizon preemptive hvalid fuel
      ⟨reset st0, seedEvents tasks, none, 0⟩ (initial_EvInv tasks st0)
    obtain ⟨_, _, hq, _, _, hU⟩ := hinv
    exact ⟨hq, fun j hj => (hU j hj).1⟩
  · have hinv := event_loop_inv tasks v horizon preemptive hvalid
      (eventFuel tasks horizon) ⟨reset st0, seedEvents tasks, none, 0⟩
      (initial_EvInv tasks st0)
    have hdone := event_loop_exit tasks v horizon preemptive hvalid
      (eventFuel tasks horizon) ⟨reset st0, seedEvents tasks, none, 0⟩
      (initial_EvInv tasks st0) (evPhi_init_lt tasks horizon st0 hvalid)
    exact evdone_occupant tasks horizon _ hinv hdone

/-- Witness for C10: the single valid task T1 (wcet 1, period 2, deadline
2), preemptive EDF, horizon 3, with the validity hypothesis discharged by
computation. -/
theorem c10_ready_queue_positive_witness :
    (∀ t ∈ [(⟨"T1", 1, 2, 2⟩ : Task)], Task.valid t = true) ∧
    ((∀ k : Nat,
      queue_pos (tick_loop [(⟨"T1", 1, 2, 2⟩ : Task)] .edf true k
        (initState [(⟨"T1", 1, 2, 2⟩ : Task)])).1.sched ∧
      ∀ j, (tick_loop [(⟨"T1", 1, 2, 2⟩ : Task)] .edf true k
        (initState [(⟨"T1", 1, 2, 2⟩ : Task)])).2 = some j →
        0 ≤ j.remaining) ∧
    (∀ fuel : Nat,
      queue_pos (event_loop .edf 3 true fuel
        ⟨reset (initState [(⟨"T1", 1, 2, 2⟩ : Task)]),
          seedEvents [(⟨"T1", 1, 2, 2⟩ : Task)], none, 0⟩).st.sched ∧
      ∀ j, (event_loop .edf 3 true fuel
        ⟨reset (initState [(⟨"T1", 1, 2, 2⟩ : Task)]),
          seedEvents [(⟨"T1", 1, 2, 2⟩ : Task)], none, 0⟩).cur = some j →
        0 < j.remaining) ∧
    (∀ j, (event_loop .edf 3 true
        (eventFuel [(⟨"T1", 1, 2, 2⟩ : Task)] 3)
        ⟨reset (initState [(⟨"T1", 1, 2, 2⟩ : Task)]),
          seedEvents [(⟨"T1", 1, 2, 2⟩ : Task)], none, 0⟩).cur = some j →
      0 ≤ j.remaining - ((3 : Int) -
        ((event_loop .edf 3 true
          (eventFuel [(⟨"T1", 1, 2, 2⟩ : Task)] 3)
          ⟨reset (initState [(⟨"T1", 1, 2, 2⟩ : Task)]),
            seedEvents [(⟨"T1", 1, 2, 2⟩ : Task)], none, 0⟩).last_time :
          Int)))) :=
  ⟨by decide,
   c10_ready_queue_positive [(⟨"T1", 1, 2, 2⟩ : Task)] .edf 3 true
     (initState [(⟨"T1", 1, 2, 2⟩ : Task)]) (by decide)⟩

end RTSim
